import Mathlib

/-!
# tcp-go: the broadcast hub and the per-connection loops

A shallow embedding of `internal/room/service.go` (the hub, `Room.Open`) and
`internal/session/service.go` (the loops `Session.HandleRead` and `Session.HandleWrite`).

Conventions of the embedding.

* A Go `[]byte` is the list of its bytes at the moment it is handed over.  The inbound loop
  hands over slices of one buffer that it goes on writing to; what such a slice holds later
  is given by `Session.bufferAfter` and `bodyIn`.
* Go `int` values (the byte counters and the limit) are integers in the range of `int`,
  which has 32 or 64 bits (`IntSize`); `+=` is `IntSize.add`, which wraps around.  A
  byte count is a natural number.
* The hub never reads the state of a channel.  One iteration of its `select` loop is
  therefore a function from the registry and the dequeued item to the new registry and the
  list of channel operations (`send`, `close`) the iteration issues, in program order.
  What Go does with these operations (a second `close`, or a send on a closed channel,
  panics) is the separate function `chanRun`.  `Room.Open` lists what the loop does as long
  as no operation panics; `Room.OpenChecked` is the loop that a panic ends.
* A send is taken to complete: the recipient's outbound loop is receiving.
* The loops of a session consume a list of what the blocking calls yielded (the results of
  `Conn.Read`, the outcomes of the `select`), and produce the list of effects in order.
-/

namespace TcpGo

/-- Contents of a Go byte slice. -/
abbrev Bytes := List UInt8

/-- A `*session.Session` as the hub holds it.  `ID` is the field of that name; `ref` tells
allocated objects apart (pointer identity).  The object's `Messages` channel is made together
with the object, so a delivery queue is named by the session it belongs to; the counters are
state of the loops and are passed explicitly there. -/
structure Session where
  ID : String
  ref : Nat
deriving DecidableEq, Repr

/-- Kinds of lifecycle event, `room/types.go`. -/
inductive SessionEventType where
  | Register
  | Unregister
deriving DecidableEq, Repr

/-- Lifecycle event, `room/types.go`; the field `Type` of the source is `Type_` here. -/
structure Event where
  Session : Session
  Type_ : SessionEventType
deriving DecidableEq, Repr

/-- Modelled from the spec: the relay message `{origin identifier, payload bytes}`.  Its
declaring package `internal/message` is not among the sources; the two fields are the ones
`HandleRead` fills in and `Room.Open` reads. -/
structure Message where
  SessionID : String
  Body : Bytes
deriving DecidableEq, Repr

/-- An operation on the `Messages` channel of a session: `s.Messages <- body` and
`close(s.Messages)`. -/
inductive ChanOp where
  | send (s : Session) (body : Bytes)
  | close (s : Session)
deriving DecidableEq, Repr

/-- The Go map `map[string]*session.Session`, as an association list. -/
abbrev SessionMap := List (String × Session)

/-- Map read `m[k]` with the comma-ok result as an option. -/
def SessionMap.get (m : SessionMap) (k : String) : Option Session :=
  match m with
  | [] => none
  | e :: rest => if e.1 = k then some e.2 else SessionMap.get rest k

/-- Map removal `delete(m, k)`. -/
def SessionMap.delete (m : SessionMap) (k : String) : SessionMap :=
  m.filter (fun e => e.1 ≠ k)

/-- Map write `m[k] = v`: any entry under `k` is replaced. -/
def SessionMap.set (m : SessionMap) (k : String) (v : Session) : SessionMap :=
  (k, v) :: SessionMap.delete m k

/-- What makes an association list a registry of the hub: no key occurs twice (it is a map),
and every session is stored under its own identifier (the only write in the program is
`room.sessions[event.Session.ID] = event.Session`). -/
def SessionMap.WF (m : SessionMap) : Prop :=
  (m.map Prod.fst).Nodup ∧ ∀ e ∈ m, e.1 = e.2.ID

/-- The hub, `room/model.go`.  The two request channels are the input list of `Room.Open`;
the configuration is passed to the session loops. -/
structure Room where
  sessions : SessionMap
deriving DecidableEq, Repr

/-- The hub of `NewRoom`: an empty registry. -/
def NewRoom : Room := ⟨[]⟩

/-- What one `select` of `Room.Open` dequeues: an item of `room.events` or of
`room.messages`. -/
inductive Input where
  | event (e : Event)
  | message (m : Message)
deriving DecidableEq, Repr

/-- The `case event := <-room.events` branch of `Room.Open`. -/
def Room.onEvent (room : Room) (event : Event) : Room × List ChanOp :=
  let room1 : Room :=
    if event.Type_ = SessionEventType.Register then
      ⟨room.sessions.set event.Session.ID event.Session⟩
    else room
  if event.Type_ = SessionEventType.Unregister then
    if (room1.sessions.get event.Session.ID).isSome then
      (⟨room1.sessions.delete event.Session.ID⟩, [ChanOp.close event.Session])
    else (room1, [])
  else (room1, [])

/-- The `range room.sessions` loop of the `case m := <-room.messages` branch, in the order of
the association list.  Go leaves the order of a map open; every order of the same map is
again an association list, so what is proved for all lists holds for every order. -/
def broadcast (m : Message) : SessionMap → List ChanOp
  | [] => []
  | e :: rest =>
    if m.SessionID ≠ e.2.ID then ChanOp.send e.2 m.Body :: broadcast m rest
    else broadcast m rest

/-- The `case m := <-room.messages` branch of `Room.Open`. -/
def Room.onMessage (room : Room) (m : Message) : Room × List ChanOp :=
  (room, broadcast m room.sessions)

/-- One iteration of the `for { select { ... } }` of `Room.Open`. -/
def Room.step (room : Room) (i : Input) : Room × List ChanOp :=
  match i with
  | Input.event e => room.onEvent e
  | Input.message m => room.onMessage m

/-- The control loop `Room.Open` after it has dequeued the given items in the given order,
as long as no channel operation has panicked: the hub it has reached and the channel
operations it has issued.  Whether one of them panics is told by `chanRun`; the loop that
stops there is `Room.OpenChecked`. -/
def Room.Open (room : Room) : List Input → Room × List ChanOp
  | [] => (room, [])
  | i :: rest =>
    let r1 := room.step i
    let r2 := Room.Open r1.1 rest
    (r2.1, r1.2 ++ r2.2)

/-- Go's rules for a run of channel operations, given the queues already closed: a send on
a closed channel and a close of a closed channel panic (`none`); otherwise the run ends with
the list of closed queues. -/
def chanRun (closed : List Session) : List ChanOp → Option (List Session)
  | [] => some closed
  | ChanOp.send s _ :: ops => if s ∈ closed then none else chanRun closed ops
  | ChanOp.close s :: ops => if s ∈ closed then none else chanRun (s :: closed) ops

/-- The control loop as Go runs it: the hub it has reached, the queues it has closed, and
whether a panic has ended it. -/
structure HubRun where
  room : Room
  closed : List Session
  panicked : Bool
deriving DecidableEq, Repr

/-- The control loop `Room.Open` with Go's panics, started with the given queues closed:
each iteration changes the registry and carries out its channel operations; when one of
them panics the loop is over, with the registry as the iteration left it (the map is
written before the channel is touched), and the items behind are never dequeued. -/
def Room.OpenChecked (room : Room) (closed : List Session) : List Input → HubRun
  | [] => ⟨room, closed, false⟩
  | i :: rest =>
    match chanRun closed (room.step i).2 with
    | none => ⟨(room.step i).1, closed, true⟩
    | some closed1 => Room.OpenChecked (room.step i).1 closed1 rest

/-- The payloads a run of operations pushes onto the queue of `s`, in order. -/
def pushedTo (s : Session) : List ChanOp → List Bytes
  | [] => []
  | ChanOp.send t body :: ops => if t = s then body :: pushedTo s ops else pushedTo s ops
  | ChanOp.close _ :: ops => pushedTo s ops

/-- How often a run of operations closes the queue of `s`. -/
def closesOf (s : Session) (ops : List ChanOp) : Nat :=
  ops.count (ChanOp.close s)

/-! ## The loops of a session -/

/-- What a loop of a session does to the outside, one constructor per statement of
`session/service.go` that has an effect. -/
inductive Effect where
  /-- The send `messages <- message.Message{SessionID: session.ID, Body: buffer[:bytesRead]}`. -/
  | relay (m : Message)
  /-- The call `session.Conn.Write([]byte("Upload limit reached. Disconnecting...\n"))`. -/
  | uploadNotice
  /-- The call `session.Conn.Write([]byte("Download limit reached. Disconnecting...\n"))`. -/
  | downloadNotice
  /-- The call `session.Conn.Write(message)` with a payload taken from the delivery queue. -/
  | write (p : Bytes)
  /-- The deferred `session.Conn.Close()`. -/
  | closeConn
deriving DecidableEq, Repr

/-- Text of the upload-limit notice. -/
def uploadLimitNotice : String := "Upload limit reached. Disconnecting...\n"

/-- Text of the download-limit notice. -/
def downloadLimitNotice : String := "Download limit reached. Disconnecting...\n"

/-- The bytes an effect puts on the transport. -/
def Effect.wire : Effect → Bytes
  | Effect.uploadNotice => uploadLimitNotice.toUTF8.toList
  | Effect.downloadNotice => downloadLimitNotice.toUTF8.toList
  | Effect.write p => p
  | Effect.relay _ => []
  | Effect.closeConn => []

/-- Size of Go's `int`, which the language leaves to the target: 32 or 64 bits. -/
inductive IntSize where
  | bits32
  | bits64
deriving DecidableEq, Repr

/-- Number of bits of an `int`. -/
def IntSize.bits : IntSize → Nat
  | IntSize.bits32 => 32
  | IntSize.bits64 => 64

/-- The largest `int`. -/
def IntSize.maxInt (sz : IntSize) : Int := 2 ^ (sz.bits - 1) - 1

/-- The smallest `int`. -/
def IntSize.minInt (sz : IntSize) : Int := -(2 ^ (sz.bits - 1))

/-- Go's `+` on `int`: the sum modulo `2 ^ bits`, taken in the range of `int`, so that a sum
beyond the largest `int` wraps around to the negative values. -/
def IntSize.add (sz : IntSize) (a b : Int) : Int :=
  (a + b - sz.minInt) % 2 ^ sz.bits + sz.minInt

/-- Length of the read buffer, `buffer := make([]byte, 1024)`: no read yields more. -/
def bufferSize : Nat := 1024

/-- One pass through the body of a `for` loop: the byte counter after it, the effects of the
pass in order, and whether the pass ended in `return` (otherwise the loop goes round
again). -/
structure Pass where
  counter : Int
  effects : List Effect
  exit : Bool
deriving DecidableEq, Repr

/-- A loop after it has used up a list of inputs: the byte counter, the effects so far in
order, and whether the loop has returned (otherwise it is blocked waiting for the next
input). -/
structure LoopRun where
  counter : Int
  effects : List Effect
  exited : Bool
deriving DecidableEq, Repr

/-- The `for { ... }` around a loop body: passes are made, each on the next input, until one
of them returns. -/
def runLoop {α : Type} (body : Int → α → Pass) (counter : Int) : List α → LoopRun
  | [] => ⟨counter, [], false⟩
  | x :: rest =>
    let p := body counter x
    if p.exit then ⟨p.counter, p.effects, true⟩
    else
      let run := runLoop body p.counter rest
      ⟨run.counter, p.effects ++ run.effects, run.exited⟩

/-- Result of one `session.Conn.Read(buffer)`: the bytes read, `buffer[:bytesRead]`, and
whether `err != nil`. -/
structure ReadResult where
  data : Bytes
  err : Bool
deriving DecidableEq, Repr

/-- Body of the loop of `Session.HandleRead`, lines 38 to 53, for one result of
`Conn.Read`.  The relay effect records the message with the bytes its body holds as the send
is made; the body is the slice `buffer[:bytesRead]`, see `Session.bufferAfter`. -/
def Session.readPass (session : Session) (sz : IntSize) (limit : Int) (UploadedBytes : Int)
    (r : ReadResult) : Pass :=
  if r.err then ⟨UploadedBytes, [], true⟩
  else if r.data.length = 0 then ⟨UploadedBytes, [], false⟩
  else
    let uploaded : Int := sz.add UploadedBytes r.data.length
    if uploaded ≥ limit then ⟨uploaded, [Effect.uploadNotice], true⟩
    else ⟨uploaded, [Effect.relay ⟨session.ID, r.data⟩], false⟩

/-- The inbound loop `Session.HandleRead(messages, limit)` of a session whose
`UploadedBytes` field holds the given value, on the given results of its reads. -/
def Session.HandleRead (session : Session) (sz : IntSize) (limit : Int) (UploadedBytes : Int)
    (reads : List ReadResult) : LoopRun :=
  runLoop (session.readPass sz limit) UploadedBytes reads

/-- The call `session.Conn.Read(buffer)`: the bytes read are copied over the beginning of
the buffer, the rest of the buffer keeps what it held. -/
def readInto (buffer data : Bytes) : Bytes :=
  data ++ buffer.drop data.length

/-- The one buffer of `Session.HandleRead` (line 35, made once before the loop) after the
loop has used up the given results of its reads: every read the loop makes, up to the one
by which it returns, writes into that buffer. -/
def Session.bufferAfter (session : Session) (sz : IntSize) (limit : Int)
    (UploadedBytes : Int) (buffer : Bytes) : List ReadResult → Bytes
  | [] => buffer
  | r :: rest =>
    if (session.readPass sz limit UploadedBytes r).exit then readInto buffer r.data
    else Session.bufferAfter session sz limit (session.readPass sz limit UploadedBytes r).counter
      (readInto buffer r.data) rest

/-- What the body of a relay message of the inbound loop holds when the buffer holds
`buffer`: the body is the slice `buffer[:bytesRead]` of that buffer and not a copy. -/
def bodyIn (buffer : Bytes) (m : Message) : Bytes :=
  buffer.take m.Body.length

/-- The buffer as `make([]byte, 1024)` makes it. -/
def newBuffer : Bytes := List.replicate bufferSize 0

/-- Outcome of the `select` of `Session.HandleWrite`: `Done` fired, the receive from
`Messages` reported the channel closed, or it yielded a payload; `writeErr` tells whether
`Conn.Write` of that payload, if it comes to it, returns an error. -/
inductive Selected where
  | done
  | closed
  | message (p : Bytes) (writeErr : Bool)
deriving DecidableEq, Repr

/-- Body of the loop of `Session.HandleWrite`, lines 13 to 30, for one outcome of the
`select`. -/
def Session.writePass (sz : IntSize) (limit : Int) (DownloadedBytes : Int)
    (sel : Selected) : Pass :=
  match sel with
  | Selected.done => ⟨DownloadedBytes, [], true⟩
  | Selected.closed => ⟨DownloadedBytes, [], true⟩
  | Selected.message p writeErr =>
    let downloaded : Int := sz.add DownloadedBytes p.length
    if downloaded ≥ limit then ⟨downloaded, [Effect.downloadNotice], true⟩
    else ⟨downloaded, [Effect.write p], writeErr⟩

/-- The outbound loop `Session.HandleWrite(limit)` of a session whose `DownloadedBytes`
field holds the given value, on the given outcomes of its `select`; the deferred
`Conn.Close()` runs when the loop returns. -/
def Session.HandleWrite (sz : IntSize) (limit : Int) (DownloadedBytes : Int)
    (sels : List Selected) : LoopRun :=
  let run := runLoop (Session.writePass sz limit) DownloadedBytes sels
  if run.exited then ⟨run.counter, run.effects ++ [Effect.closeConn], true⟩ else run

/-- The relay messages among a list of effects, in order. -/
def relayed : List Effect → List Message
  | [] => []
  | Effect.relay m :: es => m :: relayed es
  | _ :: es => relayed es

/-- The payloads written to the transport among a list of effects, in order. -/
def written : List Effect → List Bytes
  | [] => []
  | Effect.write p :: es => p :: written es
  | _ :: es => written es

/-! ## What the loops let through -/

/-- The payloads the delivery queue yielded among the outcomes of the `select`, in order. -/
def yielded : List Selected → List Bytes
  | [] => []
  | Selected.message p _ :: rest => p :: yielded rest
  | _ :: rest => yielded rest

/-- Total number of bytes in the relay messages among a list of effects. -/
def relayedBytes (es : List Effect) : Nat :=
  ((relayed es).map (fun m => m.Body.length)).sum

/-- Total number of payload bytes written to the transport among a list of effects. -/
def writtenBytes (es : List Effect) : Nat :=
  ((written es).map List.length).sum

/-! ## Histories of the hub -/

/-- The lifecycle events among the items the hub dequeued, in order. -/
def lifecycle : List Input → List Event
  | [] => []
  | Input.event e :: rest => e :: lifecycle rest
  | Input.message _ :: rest => lifecycle rest

/-- The endpoints that occur in a sequence of lifecycle events, each once. -/
def endpoints (evs : List Event) : List Session :=
  (evs.map Event.Session).dedup

/-- Kind of the last lifecycle event of endpoint `s` in the sequence, if it has any. -/
def lastEventOf (s : Session) (evs : List Event) : Option SessionEventType :=
  ((evs.filter (fun e => e.Session = s)).getLast?).map Event.Type_

/-- Number of endpoints whose last lifecycle event in the sequence was Register. -/
def registeredLast (evs : List Event) : Nat :=
  ((endpoints evs).filter
    (fun s => lastEventOf s evs = some SessionEventType.Register)).length

/-- Distinct endpoints of the sequence have distinct identifiers. -/
def DistinctIDs (evs : List Event) : Prop :=
  ∀ a ∈ evs, ∀ b ∈ evs, a.Session.ID = b.Session.ID → a.Session = b.Session

/-- No endpoint is registered again after it has been unregistered: no Register event for
an endpoint comes later in the sequence than an Unregister event for it. -/
def NoRegisterAfterUnregister (evs : List Event) : Prop :=
  evs.Pairwise (fun a b => a.Type_ = SessionEventType.Unregister →
    b.Type_ = SessionEventType.Register → a.Session ≠ b.Session)

/-- No endpoint is registered again after it has been registered and unregistered: the
events Register, Unregister, Register of one endpoint do not occur in this order, with
whatever between them.  This is implied by `NoRegisterAfterUnregister`. -/
def NoReRegistration (evs : List Event) : Prop :=
  ∀ e ∈ evs, ¬ List.Sublist
    [(⟨e.Session, SessionEventType.Register⟩ : Event),
      ⟨e.Session, SessionEventType.Unregister⟩, ⟨e.Session, SessionEventType.Register⟩] evs

instance (evs : List Event) : Decidable (NoReRegistration evs) := by
  unfold NoReRegistration
  infer_instance

instance (evs : List Event) : Decidable (DistinctIDs evs) := by
  unfold DistinctIDs
  infer_instance

instance (evs : List Event) : Decidable (NoRegisterAfterUnregister evs) := by
  unfold NoRegisterAfterUnregister
  infer_instance

/-! ## Concrete data -/

instance (m : SessionMap) : Decidable (SessionMap.WF m) := by
  unfold SessionMap.WF
  infer_instance

/-- The bytes of `random message`. -/
def randomMessage : Bytes := [114, 97, 110, 100, 111, 109, 32, 109, 101, 115, 115, 97, 103, 101]

/-- Five registered sessions, as in `TestRoom_MessageBroadcast_MultipleSessions`. -/
def fiveSessions : Room :=
  ⟨[("session-4", ⟨"session-4", 4⟩), ("session-3", ⟨"session-3", 3⟩),
    ("session-2", ⟨"session-2", 2⟩), ("session-1", ⟨"session-1", 1⟩),
    ("session-0", ⟨"session-0", 0⟩)]⟩

/-- Two endpoints register, one relays and unregisters, as the goroutines of
`TestRoom_ConcurrentOperations` do; the second is still registered. -/
def twoEndpoints : List Input :=
  [Input.event ⟨⟨"s-0", 0⟩, SessionEventType.Register⟩,
    Input.event ⟨⟨"s-1", 1⟩, SessionEventType.Register⟩,
    Input.message ⟨"s-0", randomMessage⟩,
    Input.event ⟨⟨"s-0", 0⟩, SessionEventType.Unregister⟩,
    Input.event ⟨⟨"s-0", 0⟩, SessionEventType.Unregister⟩,
    Input.message ⟨"s-1", randomMessage⟩]

/-- One endpoint is registered, unregistered, registered again and unregistered again. -/
def registeredAgain : List Input :=
  [Input.event ⟨⟨"s-0", 0⟩, SessionEventType.Register⟩,
    Input.event ⟨⟨"s-0", 0⟩, SessionEventType.Unregister⟩,
    Input.event ⟨⟨"s-0", 0⟩, SessionEventType.Register⟩,
    Input.event ⟨⟨"s-0", 0⟩, SessionEventType.Unregister⟩]

/-- Two endpoints with the same identifier: the first is registered and unregistered, the
second is registered, and a second Unregister event for the first arrives. -/
def sameIdentifier : List Input :=
  [Input.event ⟨⟨"x", 0⟩, SessionEventType.Register⟩,
    Input.event ⟨⟨"x", 0⟩, SessionEventType.Unregister⟩,
    Input.event ⟨⟨"x", 1⟩, SessionEventType.Register⟩,
    Input.event ⟨⟨"x", 0⟩, SessionEventType.Unregister⟩]

/-- The run that is registered again, followed by the registration of another endpoint. -/
def registeredAgainThenOther : List Input :=
  registeredAgain ++ [Input.event ⟨⟨"s-1", 1⟩, SessionEventType.Register⟩]

/-- The bytes of `message1`. -/
def message1 : Bytes := [109, 101, 115, 115, 97, 103, 101, 49]

/-- The bytes of `message2`. -/
def message2 : Bytes := [109, 101, 115, 115, 97, 103, 101, 50]

/-- The bytes of `5byte`. -/
def fiveBytes : Bytes := [53, 98, 121, 116, 101]

/-! ## The registry as a map -/

theorem SessionMap.get_cons (e : String × Session) (rest : SessionMap) (k : String) :
    SessionMap.get (e :: rest) k = if e.1 = k then some e.2 else SessionMap.get rest k := rfl

theorem SessionMap.delete_cons (e : String × Session) (rest : SessionMap) (k : String) :
    SessionMap.delete (e :: rest) k =
      if e.1 = k then SessionMap.delete rest k else e :: SessionMap.delete rest k := by
  by_cases h : e.1 = k <;> simp [SessionMap.delete, List.filter_cons, h]

theorem SessionMap.get_delete_self (m : SessionMap) (k : String) :
    SessionMap.get (SessionMap.delete m k) k = none := by
  induction m with
  | nil => rfl
  | cons e rest ih =>
    by_cases h : e.1 = k
    · rw [SessionMap.delete_cons, if_pos h]; exact ih
    · rw [SessionMap.delete_cons, if_neg h, SessionMap.get_cons, if_neg h]; exact ih

theorem SessionMap.get_delete_ne (m : SessionMap) {k k2 : String} (h : k2 ≠ k) :
    SessionMap.get (SessionMap.delete m k) k2 = SessionMap.get m k2 := by
  induction m with
  | nil => rfl
  | cons e rest ih =>
    by_cases h1 : e.1 = k
    · have h2 : e.1 ≠ k2 := fun h3 => h (h3.symm.trans h1)
      rw [SessionMap.delete_cons, if_pos h1, SessionMap.get_cons, if_neg h2]; exact ih
    · rw [SessionMap.delete_cons, if_neg h1, SessionMap.get_cons, SessionMap.get_cons, ih]

theorem SessionMap.get_set_self (m : SessionMap) (k : String) (v : Session) :
    SessionMap.get (SessionMap.set m k v) k = some v := by
  simp [SessionMap.set, SessionMap.get]

theorem SessionMap.get_set_ne (m : SessionMap) {k k2 : String} (v : Session) (h : k2 ≠ k) :
    SessionMap.get (SessionMap.set m k v) k2 = SessionMap.get m k2 := by
  have h2 : k ≠ k2 := fun h3 => h h3.symm
  simp [SessionMap.set, SessionMap.get, h2, SessionMap.get_delete_ne m h]

theorem SessionMap.get_none_of_not_mem (m : SessionMap) (k : String)
    (h : k ∉ m.map Prod.fst) : SessionMap.get m k = none := by
  induction m with
  | nil => rfl
  | cons e rest ih =>
    simp only [List.map_cons, List.mem_cons, not_or] at h
    have h1 : e.1 ≠ k := fun h2 => h.1 h2.symm
    simpa [SessionMap.get, h1] using ih h.2

theorem SessionMap.get_isSome_iff (m : SessionMap) (k : String) :
    (SessionMap.get m k).isSome ↔ k ∈ m.map Prod.fst := by
  induction m with
  | nil => simp [SessionMap.get]
  | cons e rest ih =>
    by_cases h : e.1 = k
    · simp [SessionMap.get, h]
    · have h2 : k ≠ e.1 := fun h3 => h h3.symm
      simp only [SessionMap.get, h, if_false, List.map_cons, List.mem_cons, h2, false_or]
      exact ih

theorem SessionMap.mem_of_get (m : SessionMap) (k : String) (v : Session)
    (h : SessionMap.get m k = some v) : (k, v) ∈ m := by
  induction m with
  | nil => simp [SessionMap.get] at h
  | cons e rest ih =>
    by_cases h1 : e.1 = k
    · simp only [SessionMap.get, h1, if_true, Option.some.injEq] at h
      have : e = (k, v) := Prod.ext h1 h
      simp [this]
    · simp only [SessionMap.get, h1, if_false] at h
      exact List.mem_cons_of_mem _ (ih h)

theorem SessionMap.get_of_mem (m : SessionMap) (hnd : (m.map Prod.fst).Nodup)
    (k : String) (v : Session) (h : (k, v) ∈ m) : SessionMap.get m k = some v := by
  induction m with
  | nil => simp at h
  | cons e rest ih =>
    simp only [List.map_cons, List.nodup_cons] at hnd
    rcases List.mem_cons.mp h with h1 | h1
    · simp [SessionMap.get, ← h1]
    · have h2 : e.1 ≠ k := by
        intro h3
        apply hnd.1
        rw [h3]
        exact List.mem_map_of_mem Prod.fst h1
      simpa [SessionMap.get, h2] using ih hnd.2 h1

theorem SessionMap.WF_tail {e : String × Session} {rest : SessionMap}
    (h : SessionMap.WF (e :: rest)) : SessionMap.WF rest := by
  refine ⟨?_, fun x hx => h.2 x (List.mem_cons_of_mem _ hx)⟩
  have := h.1
  simp only [List.map_cons, List.nodup_cons] at this
  exact this.2

theorem SessionMap.WF_head_ne {e : String × Session} {rest : SessionMap}
    (h : SessionMap.WF (e :: rest)) : ∀ x ∈ rest, x.2.ID ≠ e.2.ID := by
  intro x hx hid
  have h1 := h.1
  simp only [List.map_cons, List.nodup_cons] at h1
  apply h1.1
  have hx1 : x.1 = x.2.ID := h.2 x (List.mem_cons_of_mem _ hx)
  have he1 : e.1 = e.2.ID := h.2 e (List.mem_cons_self _ _)
  rw [he1, ← hid, ← hx1]
  exact List.mem_map_of_mem Prod.fst hx

theorem SessionMap.delete_subset (m : SessionMap) (k : String) :
    ∀ x ∈ SessionMap.delete m k, x ∈ m := by
  intro x hx
  exact (List.mem_filter.mp hx).1

theorem SessionMap.WF_delete (m : SessionMap) (k : String) (h : SessionMap.WF m) :
    SessionMap.WF (SessionMap.delete m k) := by
  refine ⟨?_, fun x hx => h.2 x (SessionMap.delete_subset m k x hx)⟩
  exact List.Nodup.sublist (List.Sublist.map _ (List.filter_sublist _)) h.1

theorem SessionMap.not_mem_delete (m : SessionMap) (k : String) :
    k ∉ (SessionMap.delete m k).map Prod.fst := by
  intro h
  rcases List.mem_map.mp h with ⟨x, hx, hk⟩
  have := (List.mem_filter.mp hx).2
  simp [hk] at this

theorem SessionMap.WF_set (m : SessionMap) (s : Session) (h : SessionMap.WF m) :
    SessionMap.WF (SessionMap.set m s.ID s) := by
  have hd := SessionMap.WF_delete m s.ID h
  refine ⟨?_, ?_⟩
  · simp only [SessionMap.set, List.map_cons, List.nodup_cons]
    exact ⟨SessionMap.not_mem_delete m s.ID, hd.1⟩
  · intro x hx
    rcases List.mem_cons.mp hx with h1 | h1
    · rw [h1]
    · exact hd.2 x h1

/-! ## The relay branch -/

theorem pushedTo_broadcast_origin (m : Message) (s : Session) (h : s.ID = m.SessionID)
    (l : SessionMap) : pushedTo s (broadcast m l) = [] := by
  induction l with
  | nil => rfl
  | cons e rest ih =>
    by_cases h1 : m.SessionID = e.2.ID
    · simpa [broadcast, h1] using ih
    · have h2 : e.2 ≠ s := by
        intro h3
        apply h1
        rw [h3, h]
      simpa [broadcast, h1, pushedTo, h2] using ih

theorem pushedTo_broadcast_absent (m : Message) (s : Session) (l : SessionMap)
    (h : ∀ e ∈ l, e.2 ≠ s) : pushedTo s (broadcast m l) = [] := by
  induction l with
  | nil => rfl
  | cons e rest ih =>
    have h2 : e.2 ≠ s := h e (List.mem_cons_self _ _)
    have ih1 := ih (fun x hx => h x (List.mem_cons_of_mem _ hx))
    by_cases h1 : m.SessionID = e.2.ID
    · simpa [broadcast, h1] using ih1
    · simpa [broadcast, h1, pushedTo, h2] using ih1

theorem pushedTo_broadcast_member (m : Message) (s : Session) (l : SessionMap)
    (hwf : SessionMap.WF l) (hmem : (s.ID, s) ∈ l) (hne : s.ID ≠ m.SessionID) :
    pushedTo s (broadcast m l) = [m.Body] := by
  induction l with
  | nil => simp at hmem
  | cons e rest ih =>
    rcases List.mem_cons.mp hmem with h1 | h1
    · have hrest : ∀ x ∈ rest, x.2 ≠ s := by
        intro x hx hxs
        have := SessionMap.WF_head_ne hwf x hx
        rw [← h1, hxs] at this
        exact this rfl
      have h2 : m.SessionID ≠ s.ID := fun h3 => hne h3.symm
      simp [broadcast, ← h1, h2, pushedTo, pushedTo_broadcast_absent m s rest hrest]
    · have h2 : e.2 ≠ s := by
        intro h3
        have := SessionMap.WF_head_ne hwf (s.ID, s) h1
        rw [h3] at this
        exact this rfl
      have ih1 := ih (SessionMap.WF_tail hwf) h1
      by_cases h3 : m.SessionID = e.2.ID
      · simpa [broadcast, h3] using ih1
      · simpa [broadcast, h3, pushedTo, h2] using ih1

theorem broadcast_no_close (m : Message) (s : Session) (l : SessionMap) :
    ChanOp.close s ∉ broadcast m l := by
  induction l with
  | nil => simp [broadcast]
  | cons e rest ih =>
    by_cases h1 : m.SessionID = e.2.ID
    · simpa [broadcast, h1] using ih
    · simpa [broadcast, h1] using ih

theorem broadcast_length_absent (m : Message) (l : SessionMap)
    (h : ∀ e ∈ l, e.2.ID ≠ m.SessionID) : (broadcast m l).length = l.length := by
  induction l with
  | nil => rfl
  | cons e rest ih =>
    have h1 : m.SessionID ≠ e.2.ID := fun h2 => h e (List.mem_cons_self _ _) h2.symm
    simp [broadcast, h1, ih (fun x hx => h x (List.mem_cons_of_mem _ hx))]

theorem broadcast_length_present (m : Message) (l : SessionMap) (hwf : SessionMap.WF l)
    (h : ∃ e ∈ l, e.2.ID = m.SessionID) : (broadcast m l).length + 1 = l.length := by
  induction l with
  | nil => simp at h
  | cons e rest ih =>
    by_cases h1 : m.SessionID = e.2.ID
    · have hrest : ∀ x ∈ rest, x.2.ID ≠ m.SessionID := by
        intro x hx
        rw [h1]
        exact SessionMap.WF_head_ne hwf x hx
      simp [broadcast, h1, broadcast_length_absent m rest hrest]
    · have h2 : ∃ x ∈ rest, x.2.ID = m.SessionID := by
        rcases h with ⟨x, hx, hxid⟩
        rcases List.mem_cons.mp hx with h3 | h3
        · exact absurd (h3 ▸ hxid).symm h1
        · exact ⟨x, h3, hxid⟩
      simp [broadcast, h1, ih (SessionMap.WF_tail hwf) h2]

/-- C1. Relay branch of `Room.Open`: for every registry and relay message, the registry is
left as it is, the body is pushed exactly once and unchanged onto the queue of every
registered session whose ID differs from the origin, nothing is pushed onto the queue of a
session whose ID is the origin or of a session that is not registered, no queue is closed,
and when the origin is registered the number of pushes is the size of the registry less
one. -/
theorem relay_branch_delivers (room : Room) (hwf : room.sessions.WF) (m : Message) :
    (room.step (Input.message m)).1 = room ∧
    (∀ s, room.sessions.get s.ID = some s → s.ID ≠ m.SessionID →
      pushedTo s (room.step (Input.message m)).2 = [m.Body]) ∧
    (∀ s, s.ID = m.SessionID → pushedTo s (room.step (Input.message m)).2 = []) ∧
    (∀ s, room.sessions.get s.ID ≠ some s →
      pushedTo s (room.step (Input.message m)).2 = []) ∧
    (∀ s, closesOf s (room.step (Input.message m)).2 = 0) ∧
    ((∃ s, room.sessions.get s.ID = some s ∧ s.ID = m.SessionID) →
      (room.step (Input.message m)).2.length + 1 = room.sessions.length) := by
  refine ⟨rfl, ?_, ?_, ?_, ?_, ?_⟩
  · intro s hs hne
    exact pushedTo_broadcast_member m s room.sessions hwf
      (SessionMap.mem_of_get _ _ _ hs) hne
  · intro s hs
    exact pushedTo_broadcast_origin m s hs room.sessions
  · intro s hs
    apply pushedTo_broadcast_absent
    intro e he hes
    apply hs
    have hk : e.1 = s.ID := by rw [hwf.2 e he, hes]
    have : e = (s.ID, s) := Prod.ext hk hes
    exact SessionMap.get_of_mem _ hwf.1 _ _ (this ▸ he)
  · intro s
    exact List.count_eq_zero.mpr (broadcast_no_close m s room.sessions)
  · rintro ⟨s, hs, hid⟩
    exact broadcast_length_present m room.sessions hwf
      ⟨(s.ID, s), SessionMap.mem_of_get _ _ _ hs, hid⟩

/-- C1 at the five sessions of the test: `session-1` gets the body once, the origin
`session-0` gets nothing, and there are four pushes. -/
theorem relay_branch_delivers_witness :
    fiveSessions.sessions.WF ∧
    pushedTo ⟨"session-1", 1⟩
      (fiveSessions.step (Input.message ⟨"session-0", randomMessage⟩)).2 = [randomMessage] ∧
    pushedTo ⟨"session-0", 0⟩
      (fiveSessions.step (Input.message ⟨"session-0", randomMessage⟩)).2 = [] ∧
    (fiveSessions.step (Input.message ⟨"session-0", randomMessage⟩)).2.length + 1 = 5 :=
  have h := relay_branch_delivers fiveSessions (by decide) ⟨"session-0", randomMessage⟩
  ⟨by decide, h.2.1 ⟨"session-1", 1⟩ (by decide) (by decide),
    h.2.2.1 ⟨"session-0", 0⟩ rfl,
    h.2.2.2.2.2 ⟨⟨"session-0", 0⟩, by decide, rfl⟩⟩

/-! ## Arithmetic of `int` -/

theorem IntSize.add_eq (sz : IntSize) (a b : Int) (hlo : sz.minInt ≤ a + b)
    (hhi : a + b ≤ sz.maxInt) : sz.add a b = a + b := by
  cases sz <;> simp only [IntSize.add, IntSize.minInt, IntSize.maxInt, IntSize.bits] at * <;>
    norm_num at * <;> omega

theorem IntSize.add_len (sz : IntSize) (a : Int) (n : Nat) (hlo : sz.minInt ≤ a)
    (hhi : a + n ≤ sz.maxInt) : sz.add a n = a + n :=
  IntSize.add_eq sz a n (by omega) hhi

theorem IntSize.maxInt_ge (sz : IntSize) : (2147483647 : Int) ≤ sz.maxInt := by
  cases sz <;> simp only [IntSize.maxInt, IntSize.bits] <;> norm_num

theorem IntSize.minInt_le (sz : IntSize) : sz.minInt ≤ 0 := by
  cases sz <;> simp only [IntSize.minInt, IntSize.bits] <;> norm_num

/-! ## The inbound loop -/

theorem Session.HandleRead_cons (session : Session) (sz : IntSize) (limit u : Int)
    (r : ReadResult) (rest : List ReadResult) :
    session.HandleRead sz limit u (r :: rest) =
      if (session.readPass sz limit u r).exit then
        ⟨(session.readPass sz limit u r).counter, (session.readPass sz limit u r).effects,
          true⟩
      else
        ⟨(session.HandleRead sz limit (session.readPass sz limit u r).counter rest).counter,
          (session.readPass sz limit u r).effects ++
            (session.HandleRead sz limit (session.readPass sz limit u r).counter rest).effects,
          (session.HandleRead sz limit (session.readPass sz limit u r).counter rest).exited⟩ :=
  rfl

theorem Session.readPass_breach (session : Session) (sz : IntSize) (limit u : Int)
    (r : ReadResult) (hok : r.err = false) (hn : r.data.length ≠ 0)
    (h : limit ≤ sz.add u r.data.length) :
    session.readPass sz limit u r =
      ⟨sz.add u r.data.length, [Effect.uploadNotice], true⟩ := by
  simp [Session.readPass, hok, hn, h]

theorem Session.readPass_relay (session : Session) (sz : IntSize) (limit u : Int)
    (r : ReadResult) (hok : r.err = false) (hn : r.data.length ≠ 0)
    (h : ¬ limit ≤ sz.add u r.data.length) :
    session.readPass sz limit u r =
      ⟨sz.add u r.data.length, [Effect.relay ⟨session.ID, r.data⟩], false⟩ := by
  simp [Session.readPass, hok, hn, h]

theorem Session.readPass_zero (session : Session) (sz : IntSize) (limit u : Int)
    (r : ReadResult) (hok : r.err = false) (hn : r.data.length = 0) :
    session.readPass sz limit u r = ⟨u, [], false⟩ := by
  simp [Session.readPass, hok, hn]

theorem Session.readPass_err (session : Session) (sz : IntSize) (limit u : Int)
    (r : ReadResult) (herr : r.err = true) :
    session.readPass sz limit u r = ⟨u, [], true⟩ := by
  simp [Session.readPass, herr]

/-- C2 as amended. One read of `Session.HandleRead`: for every limit, every upload counter
`u` and every read without error of `n > 0` bytes such that `u + n` is not above the largest
`int`, the counter becomes `u + n`; the chunk is relayed to the hub, under the ID of the
session, exactly when `u + n < limit`, and then the loop goes on; when `u + n >= limit` the
upload-limit notice is written, nothing is relayed and the loop returns, whatever reads
would follow. -/
theorem read_pass_quota (session : Session) (sz : IntSize) (limit u : Int) (r : ReadResult)
    (rest : List ReadResult) (hok : r.err = false) (hn : 0 < r.data.length)
    (hlo : sz.minInt ≤ u) (hhi : u + r.data.length ≤ sz.maxInt) :
    (session.readPass sz limit u r).counter = u + r.data.length ∧
    ((∃ m, Effect.relay m ∈ (session.readPass sz limit u r).effects) ↔
      u + r.data.length < limit) ∧
    (u + r.data.length < limit →
      (session.readPass sz limit u r).effects = [Effect.relay ⟨session.ID, r.data⟩] ∧
      (session.readPass sz limit u r).exit = false ∧
      session.HandleRead sz limit u (r :: rest) =
        ⟨(session.HandleRead sz limit (u + r.data.length) rest).counter,
          Effect.relay ⟨session.ID, r.data⟩ ::
            (session.HandleRead sz limit (u + r.data.length) rest).effects,
          (session.HandleRead sz limit (u + r.data.length) rest).exited⟩) ∧
    (limit ≤ u + r.data.length →
      (session.readPass sz limit u r).effects = [Effect.uploadNotice] ∧
      (session.readPass sz limit u r).exit = true ∧
      session.HandleRead sz limit u (r :: rest) =
        ⟨u + r.data.length, [Effect.uploadNotice], true⟩) := by
  have hn0 : r.data.length ≠ 0 := Nat.pos_iff_ne_zero.mp hn
  have hadd : sz.add u r.data.length = u + r.data.length := IntSize.add_len sz u _ hlo hhi
  by_cases h : limit ≤ u + r.data.length
  · have hp := Session.readPass_breach session sz limit u r hok hn0 (by rw [hadd]; exact h)
    rw [hadd] at hp
    have hlt : ¬ (u + r.data.length < limit) := not_lt.mpr h
    rw [Session.HandleRead_cons, hp]
    simp [hlt, h]
  · have hp := Session.readPass_relay session sz limit u r hok hn0 (by rw [hadd]; exact h)
    rw [hadd] at hp
    have hlt : u + r.data.length < limit := not_le.mp h
    rw [Session.HandleRead_cons, hp]
    simp [hlt, h]

/-- C2 at the boundary of the test: counter 5, a read of 5 bytes, limit 10. -/
theorem read_pass_quota_witness :
    ((⟨"test-session", 0⟩ : Session).readPass IntSize.bits64 10 5 ⟨fiveBytes, false⟩).counter
      = 10 ∧
    (⟨"test-session", 0⟩ : Session).HandleRead IntSize.bits64 10 5 [⟨fiveBytes, false⟩] =
      ⟨10, [Effect.uploadNotice], true⟩ :=
  have h := read_pass_quota ⟨"test-session", 0⟩ IntSize.bits64 10 5 ⟨fiveBytes, false⟩ []
    rfl (by decide) (by decide) (by decide)
  ⟨h.1, (h.2.2.2 (by decide)).2.2⟩

/-- C2 as stated fails where the sum overflows: with 64-bit `int`, counter `2^63 - 3`,
a read of 5 bytes and limit 100, `u + n` is far above the limit, yet the counter wraps
around to `-2^63 + 2`, which is below the limit, so the chunk is relayed, no notice is
written and the loop goes on. -/
theorem read_pass_wraps :
    (2 ^ 63 - 3 : Int) ≤ IntSize.bits64.maxInt ∧
    (100 : Int) ≤ (2 ^ 63 - 3 : Int) + (fiveBytes.length : Int) ∧
    (⟨"test-session", 0⟩ : Session).readPass IntSize.bits64 100 (2 ^ 63 - 3)
      ⟨fiveBytes, false⟩ =
      ⟨-2 ^ 63 + 2, [Effect.relay ⟨"test-session", fiveBytes⟩], false⟩ := by
  decide

/-! ## Runs of a loop -/

theorem runLoop_cons {α : Type} (body : Int → α → Pass) (c : Int) (x : α) (rest : List α) :
    runLoop body c (x :: rest) =
      if (body c x).exit then ⟨(body c x).counter, (body c x).effects, true⟩
      else ⟨(runLoop body (body c x).counter rest).counter,
        (body c x).effects ++ (runLoop body (body c x).counter rest).effects,
        (runLoop body (body c x).counter rest).exited⟩ := rfl

theorem runLoop_append_running {α : Type} (body : Int → α → Pass) (pre post : List α) :
    ∀ c : Int, (runLoop body c pre).exited = false →
      runLoop body c (pre ++ post) =
        ⟨(runLoop body (runLoop body c pre).counter post).counter,
          (runLoop body c pre).effects ++
            (runLoop body (runLoop body c pre).counter post).effects,
          (runLoop body (runLoop body c pre).counter post).exited⟩ := by
  induction pre with
  | nil => intro c _; simp [runLoop]
  | cons x rest ih =>
    intro c h
    rw [runLoop_cons] at h
    by_cases hx : (body c x).exit = true
    · simp [hx] at h
    · simp only [hx] at h
      simp only [Bool.false_eq_true, if_false] at h
      have ih1 := ih (body c x).counter h
      simp only [List.cons_append, runLoop_cons, hx, Bool.false_eq_true, if_false, ih1,
        List.append_assoc]

theorem runLoop_append_exited {α : Type} (body : Int → α → Pass) (pre post : List α) :
    ∀ c : Int, (runLoop body c pre).exited = true →
      runLoop body c (pre ++ post) = runLoop body c pre := by
  induction pre with
  | nil => intro c h; simp [runLoop] at h
  | cons x rest ih =>
    intro c h
    rw [runLoop_cons] at h
    by_cases hx : (body c x).exit = true
    · simp [runLoop_cons, hx]
    · simp only [hx, Bool.false_eq_true, if_false] at h
      have ih1 := ih (body c x).counter h
      simp only [List.cons_append, runLoop_cons, hx, Bool.false_eq_true, if_false, ih1]

theorem relayed_append (a b : List Effect) : relayed (a ++ b) = relayed a ++ relayed b := by
  induction a with
  | nil => rfl
  | cons e rest ih => cases e <;> simp [relayed, ih]

theorem written_append (a b : List Effect) : written (a ++ b) = written a ++ written b := by
  induction a with
  | nil => rfl
  | cons e rest ih => cases e <;> simp [written, ih]

theorem Session.readPass_running (session : Session) (sz : IntSize) (limit u : Int)
    (r : ReadResult) (h : (session.readPass sz limit u r).exit = false) :
    ∀ e ∈ (session.readPass sz limit u r).effects, ∃ m, e = Effect.relay m := by
  unfold Session.readPass at h ⊢
  by_cases h1 : r.err = true
  · simp [h1] at h
  · by_cases h2 : r.data.length = 0
    · simp [h1, h2]
    · by_cases h3 : sz.add u (r.data.length : Int) ≥ limit
      · simp [h1, h2, h3] at h
      · simp [h1, h2, h3]

theorem Session.HandleRead_running (session : Session) (sz : IntSize) (limit : Int)
    (reads : List ReadResult) :
    ∀ u : Int, (session.HandleRead sz limit u reads).exited = false →
      ∀ e ∈ (session.HandleRead sz limit u reads).effects, ∃ m, e = Effect.relay m := by
  induction reads with
  | nil => intro u _ e he; simp [Session.HandleRead, runLoop] at he
  | cons r rest ih =>
    intro u h e he
    rw [Session.HandleRead_cons] at h he
    by_cases hx : (session.readPass sz limit u r).exit = true
    · simp [hx] at h
    · simp only [hx, Bool.false_eq_true, if_false] at h he
      rcases List.mem_append.mp he with h1 | h1
      · exact Session.readPass_running session sz limit u r (by simpa using hx) e h1
      · exact ih _ h e h1

theorem count_zero_of_relays (es : List Effect) (x : Effect) (hx : ∀ m, x ≠ Effect.relay m)
    (h : ∀ e ∈ es, ∃ m, e = Effect.relay m) : es.count x = 0 := by
  apply List.count_eq_zero.mpr
  intro hmem
  rcases h x hmem with ⟨m, hm⟩
  exact hx m hm

theorem Session.HandleRead_at_limit (session : Session) (sz : IntSize) (limit : Int)
    (more : List ReadResult) :
    ∀ c : Int, limit ≤ c → sz.minInt ≤ c →
      (∀ x ∈ more, c + (x.data.length : Int) ≤ sz.maxInt) →
      relayed (session.HandleRead sz limit c more).effects = [] := by
  induction more with
  | nil => intro c _ _ _; rfl
  | cons r rest ih =>
    intro c hc hlo hfit
    rw [Session.HandleRead_cons]
    by_cases h1 : r.err = true
    · rw [Session.readPass_err session sz limit c r h1]
      simp [relayed]
    · have hok : r.err = false := by simpa using h1
      by_cases h2 : r.data.length = 0
      · rw [Session.readPass_zero session sz limit c r hok h2]
        simpa using ih c hc hlo (fun x hx => hfit x (List.mem_cons_of_mem _ hx))
      · have hadd := IntSize.add_len sz c r.data.length hlo
          (hfit r (List.mem_cons_self _ _))
        rw [Session.readPass_breach session sz limit c r hok h2 (by rw [hadd]; omega)]
        simp [relayed]

/-- C3 as amended. Whole run of `Session.HandleRead`: take any run in which, after the
reads `pre`, the loop is still going and the next read, of at least one byte and without
error, brings the upload counter as the loop computes it to the limit or beyond.  Then,
whatever reads `post` would follow, the whole run consists of what was done before that read
followed by the upload-limit notice, and the loop has returned: the notice is written
exactly once, everything before it is a relay, and no relay message is sent afterwards.
Moreover a loop whose counter is at the limit or beyond relays nothing, whatever it reads,
as long as no sum goes beyond the largest `int`. -/
theorem upload_limit_run (session : Session) (sz : IntSize) (limit u : Int)
    (pre post : List ReadResult) (r : ReadResult)
    (hrun : (session.HandleRead sz limit u pre).exited = false)
    (hok : r.err = false) (hn : 0 < r.data.length)
    (hreach : limit ≤ sz.add (session.HandleRead sz limit u pre).counter r.data.length) :
    session.HandleRead sz limit u (pre ++ r :: post) =
      ⟨sz.add (session.HandleRead sz limit u pre).counter r.data.length,
        (session.HandleRead sz limit u pre).effects ++ [Effect.uploadNotice], true⟩ ∧
    (∀ e ∈ (session.HandleRead sz limit u pre).effects, ∃ m, e = Effect.relay m) ∧
    (session.HandleRead sz limit u (pre ++ r :: post)).effects.count Effect.uploadNotice = 1 ∧
    relayed (session.HandleRead sz limit u (pre ++ r :: post)).effects =
      relayed (session.HandleRead sz limit u pre).effects ∧
    (∀ (c : Int) (more : List ReadResult), limit ≤ c → sz.minInt ≤ c →
      (∀ x ∈ more, c + (x.data.length : Int) ≤ sz.maxInt) →
      relayed (session.HandleRead sz limit c more).effects = []) := by
  have hn0 : r.data.length ≠ 0 := Nat.pos_iff_ne_zero.mp hn
  have hrelays := Session.HandleRead_running session sz limit pre u hrun
  have hp := Session.readPass_breach session sz limit
    (session.HandleRead sz limit u pre).counter r hok hn0 hreach
  have hwhole : session.HandleRead sz limit u (pre ++ r :: post) =
      ⟨sz.add (session.HandleRead sz limit u pre).counter r.data.length,
        (session.HandleRead sz limit u pre).effects ++ [Effect.uploadNotice], true⟩ := by
    have h1 := runLoop_append_running (session.readPass sz limit) pre (r :: post) u hrun
    have h2 : runLoop (session.readPass sz limit) (session.HandleRead sz limit u pre).counter
        (r :: post) = ⟨sz.add (session.HandleRead sz limit u pre).counter r.data.length,
          [Effect.uploadNotice], true⟩ := by
      rw [runLoop_cons, hp]
      simp
    unfold Session.HandleRead at h2 ⊢
    rw [h1, h2]
  refine ⟨hwhole, hrelays, ?_, ?_,
    fun c more hc hlo hfit => Session.HandleRead_at_limit session sz limit more c hc hlo hfit⟩
  · rw [hwhole]
    simp only [List.count_append]
    rw [count_zero_of_relays _ Effect.uploadNotice (fun m h => by cases h) hrelays]
    simp
  · rw [hwhole]
    simp [relayed_append, relayed]

/-- C3 on the run of `TestServer_UploadLimit_Integration` cut down to limit 10: a read of
five bytes is relayed, the next read of five bytes reaches the limit, a third read is never
made. -/
theorem upload_limit_run_witness :
    (⟨"test-session", 0⟩ : Session).HandleRead IntSize.bits64 10 0
      ([⟨fiveBytes, false⟩] ++ ⟨fiveBytes, false⟩ :: [⟨fiveBytes, false⟩]) =
      ⟨10, [Effect.relay ⟨"test-session", fiveBytes⟩, Effect.uploadNotice], true⟩ :=
  (upload_limit_run ⟨"test-session", 0⟩ IntSize.bits64 10 0 [⟨fiveBytes, false⟩]
    [⟨fiveBytes, false⟩] ⟨fiveBytes, false⟩ rfl rfl (by decide) (by decide)).1

/-- C3 as stated fails when the counter is at the limit before any byte is read: with
limit 0 and counter 0 the counter has reached the limit, and when the peer closes at once
the run ends by the read error with no upload-limit notice at all. -/
theorem no_upload_notice_at_limit_from_start :
    (0 : Int) ≤ 0 ∧
    (⟨"test-session", 0⟩ : Session).HandleRead IntSize.bits64 0 0 [⟨[], true⟩] =
      ⟨0, [], true⟩ ∧
    ((⟨"test-session", 0⟩ : Session).HandleRead IntSize.bits64 0 0
      [⟨[], true⟩]).effects.count Effect.uploadNotice = 0 := by
  decide

/-! ## The outbound loop -/

theorem Session.HandleWrite_running (sz : IntSize) (limit d : Int) (sels : List Selected)
    (h : (Session.HandleWrite sz limit d sels).exited = false) :
    (runLoop (Session.writePass sz limit) d sels).exited = false ∧
    Session.HandleWrite sz limit d sels = runLoop (Session.writePass sz limit) d sels := by
  unfold Session.HandleWrite at h ⊢
  by_cases hx : (runLoop (Session.writePass sz limit) d sels).exited = true
  · simp [hx] at h
  · simp [hx]

theorem Session.writePass_breach (sz : IntSize) (limit d : Int) (p : Bytes) (writeErr : Bool)
    (h : limit ≤ sz.add d p.length) :
    Session.writePass sz limit d (Selected.message p writeErr) =
      ⟨sz.add d p.length, [Effect.downloadNotice], true⟩ := by
  simp [Session.writePass, h]

theorem Session.writePass_write (sz : IntSize) (limit d : Int) (p : Bytes) (writeErr : Bool)
    (h : ¬ limit ≤ sz.add d p.length) :
    Session.writePass sz limit d (Selected.message p writeErr) =
      ⟨sz.add d p.length, [Effect.write p], writeErr⟩ := by
  simp [Session.writePass, h]

theorem Session.writePass_running (sz : IntSize) (limit d : Int) (sel : Selected)
    (h : (Session.writePass sz limit d sel).exit = false) :
    ∀ e ∈ (Session.writePass sz limit d sel).effects, ∃ q, e = Effect.write q := by
  cases sel with
  | done => simp [Session.writePass] at h
  | closed => simp [Session.writePass] at h
  | message p writeErr =>
    by_cases h3 : limit ≤ sz.add d (p.length : Int)
    · rw [Session.writePass_breach sz limit d p writeErr h3] at h
      simp at h
    · rw [Session.writePass_write sz limit d p writeErr h3]
      simp

theorem Session.writeLoop_running (sz : IntSize) (limit : Int) (sels : List Selected) :
    ∀ d : Int, (runLoop (Session.writePass sz limit) d sels).exited = false →
      ∀ e ∈ (runLoop (Session.writePass sz limit) d sels).effects,
        ∃ q, e = Effect.write q := by
  induction sels with
  | nil => intro d _ e he; simp [runLoop] at he
  | cons x rest ih =>
    intro d h e he
    rw [runLoop_cons] at h he
    by_cases hx : (Session.writePass sz limit d x).exit = true
    · simp [hx] at h
    · simp only [hx, Bool.false_eq_true, if_false] at h he
      rcases List.mem_append.mp he with h1 | h1
      · exact Session.writePass_running sz limit d x (by simpa using hx) e h1
      · exact ih _ h e h1

theorem count_zero_of_writes (es : List Effect) (x : Effect) (hx : ∀ q, x ≠ Effect.write q)
    (h : ∀ e ∈ es, ∃ q, e = Effect.write q) : es.count x = 0 := by
  apply List.count_eq_zero.mpr
  intro hmem
  rcases h x hmem with ⟨q, hq⟩
  exact hx q hq

/-- C4 as amended. One payload of `Session.HandleWrite`: for every limit, every download
counter `d` and every payload `p` taken from the delivery queue such that `d + len(p)` is
not above the largest `int`, the counter becomes `d + len(p)`; `p` is written to the
transport exactly when `d + len(p) < limit` (the loop then goes on unless that write fails);
when `d + len(p) >= limit` the download-limit notice is written instead of `p` and the loop
returns, closing the transport, whatever is queued behind. -/
theorem write_pass_quota (sz : IntSize) (limit d : Int) (p : Bytes) (writeErr : Bool)
    (rest : List Selected) (hlo : sz.minInt ≤ d) (hhi : d + p.length ≤ sz.maxInt) :
    (Session.writePass sz limit d (Selected.message p writeErr)).counter = d + p.length ∧
    ((∃ q, Effect.write q ∈
        (Session.writePass sz limit d (Selected.message p writeErr)).effects)
      ↔ d + p.length < limit) ∧
    (d + p.length < limit →
      (Session.writePass sz limit d (Selected.message p writeErr)).effects =
        [Effect.write p] ∧
      (Session.writePass sz limit d (Selected.message p writeErr)).exit = writeErr) ∧
    (limit ≤ d + p.length →
      (Session.writePass sz limit d (Selected.message p writeErr)).effects =
        [Effect.downloadNotice] ∧
      (Session.writePass sz limit d (Selected.message p writeErr)).exit = true ∧
      Session.HandleWrite sz limit d (Selected.message p writeErr :: rest) =
        ⟨d + p.length, [Effect.downloadNotice, Effect.closeConn], true⟩) := by
  have hadd : sz.add d p.length = d + p.length := IntSize.add_len sz d _ hlo hhi
  by_cases h : limit ≤ d + p.length
  · have hp := Session.writePass_breach sz limit d p writeErr (by rw [hadd]; exact h)
    rw [hadd] at hp
    have hlt : ¬ (d + p.length < limit) := not_lt.mpr h
    unfold Session.HandleWrite
    rw [runLoop_cons, hp]
    simp [hlt, h]
  · have hp := Session.writePass_write sz limit d p writeErr (by rw [hadd]; exact h)
    rw [hadd] at hp
    have hlt : d + p.length < limit := not_le.mp h
    rw [hp]
    simp [hlt, h]

/-- C4 at the boundary of the test: counter 5, a payload of 5 bytes, limit 10. -/
theorem write_pass_quota_witness :
    (Session.writePass IntSize.bits64 10 5 (Selected.message fiveBytes false)).counter = 10 ∧
    Session.HandleWrite IntSize.bits64 10 5 [Selected.message fiveBytes false] =
      ⟨10, [Effect.downloadNotice, Effect.closeConn], true⟩ :=
  have h := write_pass_quota IntSize.bits64 10 5 fiveBytes false [] (by decide) (by decide)
  ⟨h.1, (h.2.2.2 (by decide)).2.2⟩

/-- C4 as stated fails where the sum overflows: with 64-bit `int`, the counter at the
largest `int`, a payload of 5 bytes and limit 100, `d + len(p)` is far above the limit, yet
the counter wraps around to `-2^63 + 4`, the payload is written, no notice is written and
the loop goes on. -/
theorem write_pass_wraps :
    (2 ^ 63 - 1 : Int) = IntSize.bits64.maxInt ∧
    (100 : Int) ≤ (2 ^ 63 - 1 : Int) + (fiveBytes.length : Int) ∧
    Session.writePass IntSize.bits64 100 (2 ^ 63 - 1) (Selected.message fiveBytes false) =
      ⟨-2 ^ 63 + 4, [Effect.write fiveBytes], false⟩ := by
  decide

theorem Session.HandleWrite_at_limit (sz : IntSize) (limit : Int) (more : List Selected) :
    ∀ c : Int, limit ≤ c → sz.minInt ≤ c →
      (∀ p ∈ yielded more, c + (p.length : Int) ≤ sz.maxInt) →
      written (Session.HandleWrite sz limit c more).effects = [] := by
  have hloop : ∀ (l : List Selected) (c : Int), limit ≤ c → sz.minInt ≤ c →
      (∀ p ∈ yielded l, c + (p.length : Int) ≤ sz.maxInt) →
      written (runLoop (Session.writePass sz limit) c l).effects = [] := by
    intro l
    induction l with
    | nil => intro c _ _ _; rfl
    | cons x rest _ =>
      intro c hc hlo hfit
      rw [runLoop_cons]
      cases x with
      | done => simp [Session.writePass, written]
      | closed => simp [Session.writePass, written]
      | message p writeErr =>
        have hadd := IntSize.add_len sz c p.length hlo
          (hfit p (by simp [yielded]))
        rw [Session.writePass_breach sz limit c p writeErr (by rw [hadd]; omega)]
        simp [written]
  intro c hc hlo hfit
  unfold Session.HandleWrite
  by_cases hx : (runLoop (Session.writePass sz limit) c more).exited = true
  · simp [hx, written_append, hloop more c hc hlo hfit, written]
  · simp [hx, hloop more c hc hlo hfit]

/-- C5 as amended. Whole run of `Session.HandleWrite`: take any run in which, after the
outcomes `pre` of the `select`, the loop is still going and the next payload brings the
download counter as the loop computes it to the limit or beyond.  Then, whatever is queued
behind it, the whole run consists of what was done before that payload followed by the
download-limit notice and the closing of the transport, and the loop has returned: the
notice is written exactly once, everything before it is a payload write, and no payload is
written afterwards.  Moreover a loop whose counter is at the limit or beyond writes no
payload, whatever is queued, as long as no sum goes beyond the largest `int`. -/
theorem download_limit_run (sz : IntSize) (limit d : Int) (pre post : List Selected)
    (p : Bytes) (writeErr : Bool)
    (hrun : (Session.HandleWrite sz limit d pre).exited = false)
    (hreach : limit ≤ sz.add (Session.HandleWrite sz limit d pre).counter p.length) :
    Session.HandleWrite sz limit d (pre ++ Selected.message p writeErr :: post) =
      ⟨sz.add (Session.HandleWrite sz limit d pre).counter p.length,
        (Session.HandleWrite sz limit d pre).effects ++
          [Effect.downloadNotice, Effect.closeConn], true⟩ ∧
    (∀ e ∈ (Session.HandleWrite sz limit d pre).effects, ∃ q, e = Effect.write q) ∧
    (Session.HandleWrite sz limit d
      (pre ++ Selected.message p writeErr :: post)).effects.count Effect.downloadNotice = 1 ∧
    written (Session.HandleWrite sz limit d
      (pre ++ Selected.message p writeErr :: post)).effects
      = written (Session.HandleWrite sz limit d pre).effects ∧
    (∀ (c : Int) (more : List Selected), limit ≤ c → sz.minInt ≤ c →
      (∀ q ∈ yielded more, c + (q.length : Int) ≤ sz.maxInt) →
      written (Session.HandleWrite sz limit c more).effects = []) := by
  obtain ⟨hrun1, heq⟩ := Session.HandleWrite_running sz limit d pre hrun
  rw [heq] at hreach ⊢
  have hwrites := Session.writeLoop_running sz limit pre d hrun1
  have hp := Session.writePass_breach sz limit
    (runLoop (Session.writePass sz limit) d pre).counter p writeErr hreach
  have hwhole : Session.HandleWrite sz limit d
      (pre ++ Selected.message p writeErr :: post) =
      ⟨sz.add (runLoop (Session.writePass sz limit) d pre).counter p.length,
        (runLoop (Session.writePass sz limit) d pre).effects ++
          [Effect.downloadNotice, Effect.closeConn], true⟩ := by
    have h1 := runLoop_append_running (Session.writePass sz limit) pre
      (Selected.message p writeErr :: post) d hrun1
    have h2 : runLoop (Session.writePass sz limit)
        (runLoop (Session.writePass sz limit) d pre).counter
        (Selected.message p writeErr :: post) =
        ⟨sz.add (runLoop (Session.writePass sz limit) d pre).counter p.length,
          [Effect.downloadNotice], true⟩ := by
      rw [runLoop_cons, hp]
      simp
    unfold Session.HandleWrite
    rw [h1, h2]
    simp
  refine ⟨hwhole, hwrites, ?_, ?_,
    fun c more hc hlo hfit => Session.HandleWrite_at_limit sz limit more c hc hlo hfit⟩
  · rw [hwhole]
    simp only [List.count_append]
    rw [count_zero_of_writes _ Effect.downloadNotice (fun q h => by cases h) hwrites]
    simp
  · rw [hwhole]
    simp [written_append, written]

/-- C5 on a run with limit 10: a payload of five bytes is written, the next payload of five
bytes reaches the limit, a third payload is never taken. -/
theorem download_limit_run_witness :
    Session.HandleWrite IntSize.bits64 10 0
      ([Selected.message fiveBytes false] ++
        Selected.message fiveBytes false :: [Selected.message fiveBytes false]) =
      ⟨10, [Effect.write fiveBytes, Effect.downloadNotice, Effect.closeConn], true⟩ :=
  (download_limit_run IntSize.bits64 10 0 [Selected.message fiveBytes false]
    [Selected.message fiveBytes false] fiveBytes false rfl (by decide)).1

/-- C5 as stated fails when the counter is at the limit before any payload is taken: with
limit 0 and counter 0 the counter has reached the limit, and when `Done` fires first, or
the queue is closed, the run ends with no download-limit notice at all. -/
theorem no_download_notice_at_limit_from_start :
    (0 : Int) ≤ 0 ∧
    Session.HandleWrite IntSize.bits64 0 0 [Selected.done] =
      ⟨0, [Effect.closeConn], true⟩ ∧
    (Session.HandleWrite IntSize.bits64 0 0 [Selected.done]).effects.count
      Effect.downloadNotice = 0 ∧
    (Session.HandleWrite IntSize.bits64 0 0 [Selected.closed]).effects.count
      Effect.downloadNotice = 0 := by
  decide

/-! ## The lifecycle branch -/

theorem Room.onEvent_register (room : Room) (e : Session) :
    room.onEvent ⟨e, SessionEventType.Register⟩ = (⟨room.sessions.set e.ID e⟩, []) := by
  simp [Room.onEvent]

theorem Room.onEvent_unregister_present (room : Room) (e : Session)
    (h : (room.sessions.get e.ID).isSome = true) :
    room.onEvent ⟨e, SessionEventType.Unregister⟩ =
      (⟨room.sessions.delete e.ID⟩, [ChanOp.close e]) := by
  simp [Room.onEvent, h]

theorem Room.onEvent_unregister_absent (room : Room) (e : Session)
    (h : room.sessions.get e.ID = none) :
    room.onEvent ⟨e, SessionEventType.Unregister⟩ = (room, []) := by
  simp [Room.onEvent, h]

theorem SessionMap.mem_delete_iff (m : SessionMap) (k : String) (x : String × Session) :
    x ∈ SessionMap.delete m k ↔ x ∈ m ∧ x.1 ≠ k := by
  simp [SessionMap.delete, List.mem_filter]

theorem Room.Open_append (room : Room) (a b : List Input) :
    Room.Open room (a ++ b) =
      ((Room.Open (Room.Open room a).1 b).1,
        (Room.Open room a).2 ++ (Room.Open (Room.Open room a).1 b).2) := by
  induction a generalizing room with
  | nil => simp [Room.Open]
  | cons i rest ih => simp [Room.Open, ih, List.append_assoc]

theorem Room.Open_single (room : Room) (i : Input) : Room.Open room [i] = room.step i := by
  simp [Room.Open]

theorem Room.step_WF (room : Room) (i : Input) (h : room.sessions.WF) :
    (room.step i).1.sessions.WF := by
  cases i with
  | message m => exact h
  | event ev =>
    obtain ⟨e, t⟩ := ev
    cases t with
    | Register =>
      simp only [Room.step, Room.onEvent_register]
      exact SessionMap.WF_set _ e h
    | Unregister =>
      by_cases hp : (room.sessions.get e.ID).isSome = true
      · simp only [Room.step, Room.onEvent_unregister_present room e hp]
        exact SessionMap.WF_delete _ _ h
      · have hn : room.sessions.get e.ID = none := by
          simpa [Option.isSome_iff_ne_none] using hp
        simp only [Room.step, Room.onEvent_unregister_absent room e hn]
        exact h

theorem Room.Open_WF (inputs : List Input) :
    ∀ room : Room, room.sessions.WF → (Room.Open room inputs).1.sessions.WF := by
  induction inputs with
  | nil => intro room h; exact h
  | cons i rest ih =>
    intro room h
    exact ih _ (Room.step_WF room i h)

theorem NewRoom_WF : NewRoom.sessions.WF := by
  simp [NewRoom, SessionMap.WF]

/-- Every key of the registry was already there or comes from a Register event. -/
theorem Room.Open_keys (inputs : List Input) :
    ∀ (room : Room) (k : String), (Room.Open room inputs).1.sessions.get k ≠ none →
      room.sessions.get k ≠ none ∨
        ∃ s, Input.event ⟨s, SessionEventType.Register⟩ ∈ inputs ∧ s.ID = k := by
  induction inputs with
  | nil => intro room k h; exact Or.inl h
  | cons i rest ih =>
    intro room k h
    rcases ih (room.step i).1 k h with h1 | ⟨s, hs, hk⟩
    · cases i with
      | message m => exact Or.inl h1
      | event ev =>
        obtain ⟨e, t⟩ := ev
        cases t with
        | Register =>
          simp only [Room.step, Room.onEvent_register] at h1
          by_cases hk : k = e.ID
          · exact Or.inr ⟨e, List.mem_cons_self _ _, hk.symm⟩
          · rw [SessionMap.get_set_ne _ _ hk] at h1
            exact Or.inl h1
        | Unregister =>
          by_cases hp : (room.sessions.get e.ID).isSome = true
          · simp only [Room.step, Room.onEvent_unregister_present room e hp] at h1
            by_cases hk : k = e.ID
            · rw [hk, SessionMap.get_delete_self] at h1
              exact absurd rfl h1
            · rw [SessionMap.get_delete_ne _ hk] at h1
              exact Or.inl h1
          · have hn : room.sessions.get e.ID = none := by
              simpa [Option.isSome_iff_ne_none] using hp
            simp only [Room.step, Room.onEvent_unregister_absent room e hn] at h1
            exact Or.inl h1
    · exact Or.inr ⟨s, List.mem_cons_of_mem _ hs, hk⟩

/-- C6. Unregister branch of `Room.Open` on a registry that contains the identifier of the
endpoint: afterwards the identifier is absent, every other identifier maps to what it
mapped to before, the entries left are exactly the old entries under other identifiers,
and the one channel operation issued is the close of the delivery queue of that endpoint;
Register followed by Unregister from the empty registry leaves the registry empty. -/
theorem unregister_removes (room : Room) (e : Session)
    (h : (room.sessions.get e.ID).isSome = true) :
    (room.step (Input.event ⟨e, SessionEventType.Unregister⟩)).1.sessions.get e.ID = none ∧
    (∀ k, k ≠ e.ID →
      (room.step (Input.event ⟨e, SessionEventType.Unregister⟩)).1.sessions.get k =
        room.sessions.get k) ∧
    (∀ x, x ∈ (room.step (Input.event ⟨e, SessionEventType.Unregister⟩)).1.sessions ↔
      x ∈ room.sessions ∧ x.1 ≠ e.ID) ∧
    (room.step (Input.event ⟨e, SessionEventType.Unregister⟩)).2 = [ChanOp.close e] ∧
    NewRoom.Open [Input.event ⟨e, SessionEventType.Register⟩,
      Input.event ⟨e, SessionEventType.Unregister⟩] = (NewRoom, [ChanOp.close e]) := by
  simp only [Room.step, Room.onEvent_unregister_present room e h]
  refine ⟨SessionMap.get_delete_self _ _, fun k hk => SessionMap.get_delete_ne _ hk,
    fun x => SessionMap.mem_delete_iff _ _ x, trivial, ?_⟩
  simp [Room.Open, Room.step, Room.onEvent, NewRoom, SessionMap.set, SessionMap.delete,
    SessionMap.get]

/-- C6 at the registry of the test: `test-session-1` is registered and then unregistered. -/
theorem unregister_removes_witness :
    ((⟨[("test-session-1", ⟨"test-session-1", 0⟩)]⟩ : Room).step
      (Input.event ⟨⟨"test-session-1", 0⟩, SessionEventType.Unregister⟩)).1.sessions.get
        "test-session-1" = none ∧
    ((⟨[("test-session-1", ⟨"test-session-1", 0⟩)]⟩ : Room).step
      (Input.event ⟨⟨"test-session-1", 0⟩, SessionEventType.Unregister⟩)).2 =
        [ChanOp.close ⟨"test-session-1", 0⟩] :=
  have h := unregister_removes ⟨[("test-session-1", ⟨"test-session-1", 0⟩)]⟩
    ⟨"test-session-1", 0⟩ (by decide)
  ⟨h.1, h.2.2.2.1⟩

/-- C7 as amended. For every registry and every endpoint: the second of two consecutive
Unregister events for the endpoint, and an Unregister event for an endpoint under whose
identifier nothing is registered (as after any run from the empty registry without a
Register event under that identifier), leaves the hub as it is and issues no channel
operation: no queue is closed, and nothing can fault. -/
theorem unregister_idempotent (room : Room) (e : Session) :
    (room.step (Input.event ⟨e, SessionEventType.Unregister⟩)).1.step
        (Input.event ⟨e, SessionEventType.Unregister⟩) =
      ((room.step (Input.event ⟨e, SessionEventType.Unregister⟩)).1, []) ∧
    (room.sessions.get e.ID = none →
      room.step (Input.event ⟨e, SessionEventType.Unregister⟩) = (room, [])) ∧
    (∀ inputs : List Input,
      (∀ s, Input.event ⟨s, SessionEventType.Register⟩ ∈ inputs → s.ID ≠ e.ID) →
      (NewRoom.Open inputs).1.step (Input.event ⟨e, SessionEventType.Unregister⟩) =
        ((NewRoom.Open inputs).1, [])) := by
  refine ⟨?_, fun h => Room.onEvent_unregister_absent room e h, ?_⟩
  · by_cases hp : (room.sessions.get e.ID).isSome = true
    · simp only [Room.step, Room.onEvent_unregister_present room e hp]
      exact Room.onEvent_unregister_absent _ e (SessionMap.get_delete_self _ _)
    · have hn : room.sessions.get e.ID = none := by
        simpa [Option.isSome_iff_ne_none] using hp
      simp only [Room.step, Room.onEvent_unregister_absent room e hn]
  · intro inputs hno
    apply Room.onEvent_unregister_absent
    by_contra hne
    rcases Room.Open_keys inputs NewRoom e.ID hne with h1 | ⟨s, hs, hk⟩
    · exact h1 rfl
    · exact hno s hs hk

/-- C7 as stated fails: after `Register` of an endpoint with identifier `x`, an Unregister
event for another endpoint with the same identifier, which was never registered, empties
the registry and closes the queue of the endpoint named in the event. -/
theorem unregister_unregistered_endpoint_changes_registry :
    Input.event ⟨⟨"x", 1⟩, SessionEventType.Register⟩ ∉
      [Input.event ⟨⟨"x", 0⟩, SessionEventType.Register⟩] ∧
    (NewRoom.Open [Input.event ⟨⟨"x", 0⟩, SessionEventType.Register⟩]).1 =
      ⟨[("x", ⟨"x", 0⟩)]⟩ ∧
    (NewRoom.Open [Input.event ⟨⟨"x", 0⟩, SessionEventType.Register⟩]).1.step
      (Input.event ⟨⟨"x", 1⟩, SessionEventType.Unregister⟩) =
      (⟨[]⟩, [ChanOp.close ⟨"x", 1⟩]) := by
  decide

/-- C8. Register branch of `Room.Open`: for every registry and endpoint, afterwards the
identifier of the endpoint maps to that endpoint, whether or not it was present before,
every other identifier maps to what it mapped to before, and no channel operation is
issued, so no queue is closed. -/
theorem register_overwrites (room : Room) (e : Session) :
    (room.step (Input.event ⟨e, SessionEventType.Register⟩)).1.sessions.get e.ID = some e ∧
    (∀ k, k ≠ e.ID →
      (room.step (Input.event ⟨e, SessionEventType.Register⟩)).1.sessions.get k =
        room.sessions.get k) ∧
    (room.step (Input.event ⟨e, SessionEventType.Register⟩)).2 = [] := by
  simp only [Room.step, Room.onEvent_register]
  exact ⟨SessionMap.get_set_self _ _ _, fun k hk => SessionMap.get_set_ne _ _ hk, trivial⟩

/-! ## The registry after a history -/

theorem lifecycle_append (a b : List Input) :
    lifecycle (a ++ b) = lifecycle a ++ lifecycle b := by
  induction a with
  | nil => rfl
  | cons i rest ih => cases i <;> simp [lifecycle, ih]

theorem lastEventOf_snoc (s : Session) (evs : List Event) (e : Event) :
    lastEventOf s (evs ++ [e]) =
      if e.Session = s then some e.Type_ else lastEventOf s evs := by
  unfold lastEventOf
  by_cases h : e.Session = s
  · simp [List.filter_append, h, List.getLast?_concat]
  · simp [List.filter_append, h]

theorem lastEventOf_mem (s : Session) (evs : List Event) (t : SessionEventType)
    (h : lastEventOf s evs = some t) : ∃ e ∈ evs, e.Session = s := by
  by_contra hne
  push_neg at hne
  have hnil : evs.filter (fun e => e.Session = s) = [] := by
    apply List.filter_eq_nil_iff.mpr
    intro e he
    simpa using hne e he
  simp [lastEventOf, hnil] at h

theorem DistinctIDs_left (a b : List Event) (h : DistinctIDs (a ++ b)) : DistinctIDs a :=
  fun x hx y hy => h x (List.mem_append_left _ hx) y (List.mem_append_left _ hy)

theorem SessionMap.not_mem_of_get_none (m : SessionMap) (k : String)
    (h : SessionMap.get m k = none) : ∀ x ∈ m, x.1 ≠ k := by
  intro x hx hk
  have h1 : (SessionMap.get m k).isSome = true :=
    (SessionMap.get_isSome_iff m k).mpr (hk ▸ List.mem_map_of_mem Prod.fst hx)
  simp [h] at h1

/-- After any history from the empty registry in which distinct endpoints have distinct
identifiers, an endpoint is in the registry exactly when its last lifecycle event was
Register. -/
theorem registry_tracks_last (inputs : List Input) :
    DistinctIDs (lifecycle inputs) →
    ∀ s, (s.ID, s) ∈ (NewRoom.Open inputs).1.sessions ↔
      lastEventOf s (lifecycle inputs) = some SessionEventType.Register := by
  induction inputs using List.reverseRecOn with
  | nil =>
    intro _ s
    simp [Room.Open, NewRoom, lifecycle, lastEventOf]
  | append_singleton l i ih =>
    intro hd s
    rw [lifecycle_append] at hd ⊢
    have ih1 := ih (DistinctIDs_left _ _ hd)
    have hwf := Room.Open_WF l NewRoom NewRoom_WF
    rw [Room.Open_append, Room.Open_single]
    cases i with
    | message m =>
      simp only [lifecycle, List.append_nil, Room.step, Room.onMessage]
      exact ih1 s
    | event ev =>
      obtain ⟨e, t⟩ := ev
      have hlc : lifecycle [Input.event ⟨e, t⟩] = [⟨e, t⟩] := rfl
      rw [hlc] at hd ⊢
      rw [lastEventOf_snoc]
      have hkey : (s.ID, s) ∈ (NewRoom.Open l).1.sessions → e ≠ s → s.ID ≠ e.ID := by
        intro hmem hes hid
        obtain ⟨ev, hev, hevs⟩ := lastEventOf_mem s _ _ ((ih1 s).mp hmem)
        have := hd ev (List.mem_append_left _ hev) ⟨e, t⟩
          (List.mem_append_right _ (List.mem_singleton_self _)) (by rw [hevs]; exact hid)
        exact hes (hevs.symm.trans this).symm
      cases t with
      | Register =>
        simp only [Room.step, Room.onEvent_register, SessionMap.set, List.mem_cons,
          SessionMap.mem_delete_iff]
        by_cases hes : e = s
        · simp [hes]
        · have h1 : ¬ ((s.ID, s) = (e.ID, e)) := by
            intro h2
            exact hes (congrArg Prod.snd h2).symm
          simp only [h1, false_or, hes, if_false]
          rw [← ih1 s]
          exact ⟨fun h => h.1, fun h => ⟨h, hkey h hes⟩⟩
      | Unregister =>
        by_cases hp : ((NewRoom.Open l).1.sessions.get e.ID).isSome = true
        · simp only [Room.step, Room.onEvent_unregister_present _ e hp,
            SessionMap.mem_delete_iff]
          by_cases hes : e = s
          · simp [hes]
          · simp only [hes, if_false]
            rw [← ih1 s]
            exact ⟨fun h => h.1, fun h => ⟨h, hkey h hes⟩⟩
        · have hn : (NewRoom.Open l).1.sessions.get e.ID = none := by
            simpa [Option.isSome_iff_ne_none] using hp
          simp only [Room.step, Room.onEvent_unregister_absent _ e hn]
          by_cases hes : e = s
          · have hno : (s.ID, s) ∉ (NewRoom.Open l).1.sessions := by
              intro hmem
              exact SessionMap.not_mem_of_get_none _ _ hn _ hmem (by rw [hes])
            simp [hes, hno]
          · simp only [hes, if_false]
            exact ih1 s

theorem SessionMap.values_nodup (m : SessionMap) (h : SessionMap.WF m) :
    (m.map Prod.snd).Nodup := by
  have h1 : m.map Prod.fst = (m.map Prod.snd).map Session.ID := by
    rw [List.map_map]
    apply List.map_congr_left
    intro x hx
    exact h.2 x hx
  have h2 := h.1
  rw [h1] at h2
  exact List.Nodup.of_map _ h2

theorem SessionMap.mem_values_iff (m : SessionMap) (h : SessionMap.WF m) (s : Session) :
    s ∈ m.map Prod.snd ↔ (s.ID, s) ∈ m := by
  constructor
  · intro hs
    obtain ⟨x, hx, hxs⟩ := List.mem_map.mp hs
    have hk : x.1 = s.ID := by rw [h.2 x hx, hxs]
    have : x = (s.ID, s) := Prod.ext hk hxs
    exact this ▸ hx
  · intro hs
    exact List.mem_map.mpr ⟨(s.ID, s), hs, rfl⟩

/-- As long as no channel operation panics: after a sequence of lifecycle events, with relay
messages anywhere between them, issued by endpoints with pairwise distinct identifiers, the
number of entries of the registry is the number of endpoints whose last lifecycle event in
the sequence was Register; it is 0 when the last event of every endpoint is Unregister. -/
theorem Room.Open_size (inputs : List Input) (hd : DistinctIDs (lifecycle inputs)) :
    (NewRoom.Open inputs).1.sessions.length = registeredLast (lifecycle inputs) ∧
    ((∀ s ∈ endpoints (lifecycle inputs),
        lastEventOf s (lifecycle inputs) = some SessionEventType.Unregister) →
      (NewRoom.Open inputs).1.sessions.length = 0) := by
  have hwf := Room.Open_WF inputs NewRoom NewRoom_WF
  have htrack := registry_tracks_last inputs hd
  have hperm : List.Perm ((NewRoom.Open inputs).1.sessions.map Prod.snd)
      ((endpoints (lifecycle inputs)).filter
        (fun s => lastEventOf s (lifecycle inputs) = some SessionEventType.Register)) := by
    apply (List.perm_ext_iff_of_nodup (SessionMap.values_nodup _ hwf)
      (List.Nodup.filter _ (List.nodup_dedup _))).mpr
    intro s
    rw [SessionMap.mem_values_iff _ hwf, htrack s, List.mem_filter]
    constructor
    · intro h
      obtain ⟨ev, hev, hevs⟩ := lastEventOf_mem s _ _ h
      refine ⟨?_, by simpa using h⟩
      exact List.mem_dedup.mpr (List.mem_map.mpr ⟨ev, hev, hevs⟩)
    · intro h
      simpa using h.2
  have hlen : (NewRoom.Open inputs).1.sessions.length = registeredLast (lifecycle inputs) := by
    have := hperm.length_eq
    rw [List.length_map] at this
    exact this
  refine ⟨hlen, ?_⟩
  intro hall
  rw [hlen]
  unfold registeredLast
  rw [List.length_eq_zero, List.filter_eq_nil_iff]
  intro s hs
  rw [hall s hs]
  decide

/-! ## The delivery queues over a history -/

theorem chanRun_append (a b : List ChanOp) :
    ∀ C : List Session, chanRun C (a ++ b) = (chanRun C a).bind (fun D => chanRun D b) := by
  induction a with
  | nil => intro C; simp [chanRun]
  | cons op rest ih =>
    intro C
    cases op with
    | send s body =>
      by_cases h : s ∈ C
      · simp [chanRun, h]
      · simp [chanRun, h, ih]
    | close s =>
      by_cases h : s ∈ C
      · simp [chanRun, h]
      · simp [chanRun, h, ih]

theorem chanRun_broadcast (m : Message) (C : List Session) (l : SessionMap)
    (h : ∀ x ∈ l, x.2 ∉ C) : chanRun C (broadcast m l) = some C := by
  induction l with
  | nil => rfl
  | cons e rest ih =>
    have h1 := ih (fun x hx => h x (List.mem_cons_of_mem _ hx))
    have h2 : e.2 ∉ C := h e (List.mem_cons_self _ _)
    by_cases h3 : m.SessionID = e.2.ID
    · simpa [broadcast, h3] using h1
    · simpa [broadcast, h3, chanRun, h2] using h1

/-- C11. Relay messages of `Session.HandleRead` on the reads of
`TestSession_HandleRead_Multiple`, `message1` and then `message2`, with limit 1000: as each
send is made the message carries the ID of the session and the bytes just read, in read
order; but the body is a slice of the one buffer the loop reads into, and once the second
read has returned the body of the first message holds `message2`, not the bytes that were
read for it. -/
theorem relay_body_overwritten :
    relayed ((⟨"test-session", 0⟩ : Session).HandleRead IntSize.bits64 1000 0
      [⟨message1, false⟩, ⟨message2, false⟩]).effects =
      [⟨"test-session", message1⟩, ⟨"test-session", message2⟩] ∧
    (relayed ((⟨"test-session", 0⟩ : Session).HandleRead IntSize.bits64 1000 0
      [⟨message1, false⟩, ⟨message2, false⟩]).effects).map
        (bodyIn ((⟨"test-session", 0⟩ : Session).bufferAfter IntSize.bits64 1000 0 newBuffer
          [⟨message1, false⟩, ⟨message2, false⟩])) = [message2, message2] ∧
    message1 ≠ message2 := by
  decide

/-! ## Order of delivery -/

theorem pushedTo_append (s : Session) (a b : List ChanOp) :
    pushedTo s (a ++ b) = pushedTo s a ++ pushedTo s b := by
  induction a with
  | nil => rfl
  | cons op rest ih =>
    cases op with
    | send t body =>
      by_cases h : t = s
      · simp [pushedTo, h, ih]
      · simp [pushedTo, h, ih]
    | close t => simp [pushedTo, ih]

theorem Room.Open_messages (room : Room) (msgs : List Message) :
    (room.Open (msgs.map Input.message)).1 = room := by
  induction msgs with
  | nil => rfl
  | cons m rest ih => simpa [Room.Open, Room.step, Room.onMessage] using ih

theorem Room.Open_messages_cons (room : Room) (m : Message) (rest : List Message) :
    (room.Open ((m :: rest).map Input.message)).2 =
      broadcast m room.sessions ++ (room.Open (rest.map Input.message)).2 := by
  simp [Room.Open, Room.step, Room.onMessage]

theorem pushedTo_messages (room : Room) (hwf : room.sessions.WF) (s : Session)
    (hs : room.sessions.get s.ID = some s) (msgs : List Message) :
    pushedTo s (room.Open (msgs.map Input.message)).2 =
      (msgs.filter (fun m => m.SessionID ≠ s.ID)).map Message.Body := by
  induction msgs with
  | nil => rfl
  | cons m rest ih =>
    rw [Room.Open_messages_cons, pushedTo_append, ih]
    by_cases h : m.SessionID = s.ID
    · rw [pushedTo_broadcast_origin m s h.symm]
      simp [List.filter_cons, h]
    · rw [pushedTo_broadcast_member m s room.sessions hwf (SessionMap.mem_of_get _ _ _ hs)
        (fun h1 => h h1.symm)]
      simp [List.filter_cons, h]

theorem written_yielded (sz : IntSize) (limit : Int) (sels : List Selected) :
    ∀ d : Int, ∃ rest : List Bytes,
      written (runLoop (Session.writePass sz limit) d sels).effects ++ rest =
        yielded sels := by
  induction sels with
  | nil => intro d; exact ⟨[], rfl⟩
  | cons x tail ih =>
    intro d
    rw [runLoop_cons]
    cases x with
    | done => exact ⟨yielded tail, by simp [Session.writePass, written, yielded]⟩
    | closed => exact ⟨yielded tail, by simp [Session.writePass, written, yielded]⟩
    | message p writeErr =>
      by_cases h3 : limit ≤ sz.add d (p.length : Int)
      · rw [Session.writePass_breach sz limit d p writeErr h3]
        exact ⟨p :: yielded tail, by simp [written, yielded]⟩
      · rw [Session.writePass_write sz limit d p writeErr h3]
        cases writeErr with
        | true => exact ⟨yielded tail, by simp [written, yielded]⟩
        | false =>
          obtain ⟨rest, hrest⟩ := ih (sz.add d p.length)
          exact ⟨rest, by simp [written, yielded, hrest]⟩

/-- C12. Ordering at the hub: for every registry, every session registered in it and every
sequence of relay messages processed by `Room.Open`, the registry stays as it is and the
payloads pushed onto the delivery queue of that session are exactly the bodies of the
messages whose origin differs from it, in the order in which the hub dequeued them; hence
the bodies of the messages of any one other sender are among them in the order in which
they were sent.  The outbound loop in turn writes payloads in the order in which its queue
yields them. -/
theorem delivery_order (room : Room) (hwf : room.sessions.WF) (s : Session)
    (hs : room.sessions.get s.ID = some s) (msgs : List Message) :
    (room.Open (msgs.map Input.message)).1 = room ∧
    pushedTo s (room.Open (msgs.map Input.message)).2 =
      (msgs.filter (fun m => m.SessionID ≠ s.ID)).map Message.Body ∧
    (∀ sender : String, sender ≠ s.ID →
      List.Sublist ((msgs.filter (fun m => m.SessionID = sender)).map Message.Body)
        (pushedTo s (room.Open (msgs.map Input.message)).2)) ∧
    (∀ (sz : IntSize) (limit d : Int) (sels : List Selected), ∃ rest : List Bytes,
      written (Session.HandleWrite sz limit d sels).effects ++ rest = yielded sels) := by
  refine ⟨Room.Open_messages room msgs, pushedTo_messages room hwf s hs msgs, ?_, ?_⟩
  · intro sender hne
    rw [pushedTo_messages room hwf s hs msgs]
    apply List.Sublist.map
    have h1 : msgs.filter (fun m => m.SessionID = sender) =
        (msgs.filter (fun m => m.SessionID ≠ s.ID)).filter (fun m => m.SessionID = sender) := by
      rw [List.filter_filter]
      apply List.filter_congr
      intro m _
      by_cases h2 : m.SessionID = sender
      · simp [h2, hne]
      · simp [h2]
    rw [h1]
    exact List.filter_sublist _
  · intro sz limit d sels
    obtain ⟨rest, hrest⟩ := written_yielded sz limit sels d
    refine ⟨rest, ?_⟩
    unfold Session.HandleWrite
    by_cases hx : (runLoop (Session.writePass sz limit) d sels).exited = true
    · simpa [hx, written_append, written] using hrest
    · simpa [hx] using hrest

/-- C12 at the five sessions of the test: two messages of `session-0` and one of
`session-1` between them; `session-1` gets the two bodies of `session-0` in order. -/
theorem delivery_order_witness :
    fiveSessions.sessions.WF ∧
    pushedTo ⟨"session-1", 1⟩
      (fiveSessions.Open ([⟨"session-0", message1⟩, ⟨"session-1", fiveBytes⟩,
        ⟨"session-0", message2⟩].map Input.message)).2 = [message1, message2] :=
  ⟨by decide,
    (delivery_order fiveSessions (by decide) ⟨"session-1", 1⟩ (by decide)
      [⟨"session-0", message1⟩, ⟨"session-1", fiveBytes⟩, ⟨"session-0", message2⟩]).2.1⟩

/-! ## Disconnects -/

/-- C13. Ordinary disconnect of `Session.HandleRead`: for every upload counter and limit,
when a read returns an error, whatever bytes came with it, the loop returns at once and no
further read is made, nothing is relayed for that read, no notice is written and the upload
counter is left as it is; this holds for the first read and for a read after any number of
reads that left the loop going. -/
theorem read_error_exits (session : Session) (sz : IntSize) (limit u : Int) (r : ReadResult)
    (rest : List ReadResult) (herr : r.err = true) :
    session.readPass sz limit u r = ⟨u, [], true⟩ ∧
    session.HandleRead sz limit u (r :: rest) = ⟨u, [], true⟩ ∧
    (∀ pre : List ReadResult, (session.HandleRead sz limit u pre).exited = false →
      session.HandleRead sz limit u (pre ++ r :: rest) =
        ⟨(session.HandleRead sz limit u pre).counter,
          (session.HandleRead sz limit u pre).effects, true⟩) := by
  have hp : ∀ c : Int, session.readPass sz limit c r = ⟨c, [], true⟩ :=
    fun c => Session.readPass_err session sz limit c r herr
  refine ⟨hp u, ?_, ?_⟩
  · rw [Session.HandleRead_cons, hp]
    simp
  · intro pre hrun
    have h1 := runLoop_append_running (session.readPass sz limit) pre (r :: rest) u hrun
    unfold Session.HandleRead at hrun ⊢
    rw [h1, runLoop_cons, hp]
    simp

/-- C13 on a peer that closes after one chunk: the chunk is relayed, then the loop
returns with the counter at 8 and no notice. -/
theorem read_error_exits_witness :
    (⟨"test-session", 0⟩ : Session).HandleRead IntSize.bits64 1000 0
      ([⟨message1, false⟩] ++ ⟨[], true⟩ :: [⟨message2, false⟩]) =
      ⟨8, [Effect.relay ⟨"test-session", message1⟩], true⟩ :=
  (read_error_exits ⟨"test-session", 0⟩ IntSize.bits64 1000 0 ⟨[], true⟩
    [⟨message2, false⟩] rfl).2.2 [⟨message1, false⟩] rfl

/-! ## The quota as a bound on the data let through -/

theorem relayedBytes_of_nil (es : List Effect) (h : relayed es = []) : relayedBytes es = 0 := by
  simp [relayedBytes, h]

theorem relayedBytes_relay (m : Message) (es : List Effect) :
    relayedBytes (Effect.relay m :: es) = m.Body.length + relayedBytes es := by
  simp [relayedBytes, relayed]

theorem writtenBytes_of_nil (es : List Effect) (h : written es = []) : writtenBytes es = 0 := by
  simp [writtenBytes, h]

theorem writtenBytes_write (p : Bytes) (es : List Effect) :
    writtenBytes (Effect.write p :: es) = p.length + writtenBytes es := by
  simp [writtenBytes, written]

theorem Session.HandleRead_bytes (session : Session) (sz : IntSize) (limit : Int)
    (hlim : limit + 1023 ≤ sz.maxInt) (reads : List ReadResult) :
    (∀ r ∈ reads, r.data.length ≤ bufferSize) →
    ∀ u : Int, 0 ≤ u → u + 1024 ≤ sz.maxInt →
      relayed (session.HandleRead sz limit u reads).effects = [] ∨
      u + (relayedBytes (session.HandleRead sz limit u reads).effects : Int) < limit := by
  induction reads with
  | nil => intro _ u _ _; exact Or.inl rfl
  | cons r rest ih =>
    intro hbuf u hu hfit
    have hrest : ∀ x ∈ rest, x.data.length ≤ bufferSize :=
      fun x hx => hbuf x (List.mem_cons_of_mem _ hx)
    have hr : r.data.length ≤ 1024 := hbuf r (List.mem_cons_self _ _)
    rw [Session.HandleRead_cons]
    by_cases h1 : r.err = true
    · left
      rw [Session.readPass_err session sz limit u r h1]
      simp [relayed]
    · have hok : r.err = false := by simpa using h1
      by_cases h2 : r.data.length = 0
      · rw [Session.readPass_zero session sz limit u r hok h2]
        simpa using ih hrest u hu hfit
      · have hadd := IntSize.add_len sz u r.data.length
          (le_trans (IntSize.minInt_le sz) hu) (by omega)
        by_cases h3 : limit ≤ sz.add u (r.data.length : Int)
        · left
          rw [Session.readPass_breach session sz limit u r hok h2 h3]
          simp [relayed]
        · right
          rw [Session.readPass_relay session sz limit u r hok h2 h3]
          simp only [Bool.false_eq_true, if_false, List.singleton_append, relayedBytes_relay]
          rw [hadd] at h3 ⊢
          rcases ih hrest (u + r.data.length) (by omega) (by omega) with h4 | h4
          · rw [relayedBytes_of_nil _ h4]
            push_cast
            omega
          · push_cast
            omega

theorem Session.HandleRead_small_limit (session : Session) (sz : IntSize) (limit : Int)
    (reads : List ReadResult) :
    (∀ r ∈ reads, r.data.length ≤ bufferSize) →
    ∀ u : Int, 0 ≤ u → u + 1024 ≤ sz.maxInt → limit ≤ u + 1 →
      relayed (session.HandleRead sz limit u reads).effects = [] := by
  induction reads with
  | nil => intro _ u _ _ _; rfl
  | cons r rest ih =>
    intro hbuf u hu hfit hle
    have hrest : ∀ x ∈ rest, x.data.length ≤ bufferSize :=
      fun x hx => hbuf x (List.mem_cons_of_mem _ hx)
    have hr : r.data.length ≤ 1024 := hbuf r (List.mem_cons_self _ _)
    rw [Session.HandleRead_cons]
    by_cases h1 : r.err = true
    · rw [Session.readPass_err session sz limit u r h1]
      simp [relayed]
    · have hok : r.err = false := by simpa using h1
      by_cases h2 : r.data.length = 0
      · rw [Session.readPass_zero session sz limit u r hok h2]
        simpa using ih hrest u hu hfit hle
      · have hadd := IntSize.add_len sz u r.data.length
          (le_trans (IntSize.minInt_le sz) hu) (by omega)
        rw [Session.readPass_breach session sz limit u r hok h2 (by rw [hadd]; omega)]
        simp [relayed]

theorem Session.HandleRead_counter (session : Session) (sz : IntSize) (limit : Int)
    (hlim : limit + 1023 ≤ sz.maxInt) (reads : List ReadResult) :
    (∀ r ∈ reads, r.data.length ≤ bufferSize) →
    ∀ u : Int, 0 ≤ u → u + 1024 ≤ sz.maxInt →
      (session.HandleRead sz limit u reads).exited = false →
      (session.HandleRead sz limit u reads).counter =
        u + (relayedBytes (session.HandleRead sz limit u reads).effects : Int) := by
  induction reads with
  | nil => intro _ u _ _ _; simp [Session.HandleRead, runLoop, relayedBytes, relayed]
  | cons r rest ih =>
    intro hbuf u hu hfit
    have hrest : ∀ x ∈ rest, x.data.length ≤ bufferSize :=
      fun x hx => hbuf x (List.mem_cons_of_mem _ hx)
    have hr : r.data.length ≤ 1024 := hbuf r (List.mem_cons_self _ _)
    rw [Session.HandleRead_cons]
    by_cases h1 : r.err = true
    · rw [Session.readPass_err session sz limit u r h1]
      simp
    · have hok : r.err = false := by simpa using h1
      by_cases h2 : r.data.length = 0
      · rw [Session.readPass_zero session sz limit u r hok h2]
        simpa using ih hrest u hu hfit
      · have hadd := IntSize.add_len sz u r.data.length
          (le_trans (IntSize.minInt_le sz) hu) (by omega)
        by_cases h3 : limit ≤ sz.add u (r.data.length : Int)
        · rw [Session.readPass_breach session sz limit u r hok h2 h3]
          simp
        · rw [Session.readPass_relay session sz limit u r hok h2 h3]
          simp only [Bool.false_eq_true, if_false, List.singleton_append, relayedBytes_relay]
          rw [hadd] at h3 ⊢
          intro hrun
          rw [ih hrest (u + r.data.length) (by omega) (by omega) hrun]
          push_cast
          omega

theorem Session.HandleWrite_written (sz : IntSize) (limit d : Int) (sels : List Selected) :
    written (Session.HandleWrite sz limit d sels).effects =
      written (runLoop (Session.writePass sz limit) d sels).effects := by
  unfold Session.HandleWrite
  by_cases hx : (runLoop (Session.writePass sz limit) d sels).exited = true
  · simp [hx, written_append, written]
  · simp [hx]

theorem Session.writeLoop_bytes (sz : IntSize) (limit : Int)
    (hlim : limit + 1023 ≤ sz.maxInt) (sels : List Selected) :
    (∀ p ∈ yielded sels, p.length ≤ bufferSize) →
    ∀ d : Int, 0 ≤ d → d + 1024 ≤ sz.maxInt →
      written (runLoop (Session.writePass sz limit) d sels).effects = [] ∨
      d + (writtenBytes (runLoop (Session.writePass sz limit) d sels).effects : Int)
        < limit := by
  induction sels with
  | nil => intro _ d _ _; exact Or.inl rfl
  | cons x tail ih =>
    intro hbuf d hd hfit
    rw [runLoop_cons]
    cases x with
    | done => left; simp [Session.writePass, written]
    | closed => left; simp [Session.writePass, written]
    | message p writeErr =>
      have hp : p.length ≤ 1024 := hbuf p (by simp [yielded])
      have htail : ∀ q ∈ yielded tail, q.length ≤ bufferSize :=
        fun q hq => hbuf q (by simp [yielded, hq])
      have hadd := IntSize.add_len sz d p.length
        (le_trans (IntSize.minInt_le sz) hd) (by omega)
      by_cases h3 : limit ≤ sz.add d (p.length : Int)
      · left
        rw [Session.writePass_breach sz limit d p writeErr h3]
        simp [written]
      · right
        rw [Session.writePass_write sz limit d p writeErr h3]
        rw [hadd] at h3 ⊢
        cases writeErr with
        | true =>
          simp only [if_true, writtenBytes_write]
          rw [writtenBytes_of_nil [] rfl]
          push_cast
          omega
        | false =>
          simp only [Bool.false_eq_true, if_false, List.singleton_append, writtenBytes_write]
          rcases ih htail (d + p.length) (by omega) (by omega) with h4 | h4
          · rw [writtenBytes_of_nil _ h4]
            push_cast
            omega
          · push_cast
            omega

theorem writtenBytes_congr (a b : List Effect) (h : written a = written b) :
    writtenBytes a = writtenBytes b := by
  simp [writtenBytes, h]

/-- C14 as amended. Quota bound on the data let through, for a session whose counters
start at 0, every limit that leaves room for one read buffer below the largest `int`
(`limit + 1023` is not above it), and every sequence of reads and of queued payloads of at
most 1024 bytes each, the size of the read buffer: when the limit is positive the total
number of bytes in the relay messages of `Session.HandleRead` is strictly less than the
limit; when the limit is at most 1 nothing at all is relayed; a chunk that would bring the
total to exactly the limit is not relayed and nothing is relayed after it.  Likewise the
total number of payload bytes `Session.HandleWrite` writes is strictly less than a positive
limit, and is zero when the limit is at most 1. -/
theorem quota_bounds_data (session : Session) (sz : IntSize) (limit : Int)
    (reads : List ReadResult) (sels : List Selected)
    (hlim : limit + 1023 ≤ sz.maxInt)
    (hreads : ∀ r ∈ reads, r.data.length ≤ bufferSize)
    (hsels : ∀ p ∈ yielded sels, p.length ≤ bufferSize) :
    (0 < limit →
      (relayedBytes (session.HandleRead sz limit 0 reads).effects : Int) < limit) ∧
    (limit ≤ 1 → relayed (session.HandleRead sz limit 0 reads).effects = []) ∧
    (∀ (pre post : List ReadResult) (r : ReadResult), reads = pre ++ r :: post →
      (session.HandleRead sz limit 0 pre).exited = false → r.err = false →
      r.data.length ≠ 0 →
      (relayedBytes (session.HandleRead sz limit 0 pre).effects : Int) + r.data.length
        = limit →
      relayed (session.HandleRead sz limit 0 reads).effects =
        relayed (session.HandleRead sz limit 0 pre).effects) ∧
    (0 < limit →
      (writtenBytes (Session.HandleWrite sz limit 0 sels).effects : Int) < limit) ∧
    (limit ≤ 1 → writtenBytes (Session.HandleWrite sz limit 0 sels).effects = 0) := by
  have hmax := IntSize.maxInt_ge sz
  have hw := Session.writeLoop_bytes sz limit hlim sels hsels 0 le_rfl (by omega)
  have hweq := writtenBytes_congr _ _ (Session.HandleWrite_written sz limit 0 sels)
  refine ⟨?_, ?_, ?_, ?_, ?_⟩
  · intro hpos
    rcases Session.HandleRead_bytes session sz limit hlim reads hreads 0 le_rfl
      (by omega) with h | h
    · rw [relayedBytes_of_nil _ h]
      simpa using hpos
    · simpa using h
  · intro hle
    exact Session.HandleRead_small_limit session sz limit reads hreads 0 le_rfl (by omega)
      (by omega)
  · intro pre post r hsplit hrun hok h0 hsum
    have hpre : ∀ x ∈ pre, x.data.length ≤ bufferSize :=
      fun x hx => hreads x (by rw [hsplit]; exact List.mem_append_left _ hx)
    have hc := Session.HandleRead_counter session sz limit hlim pre hpre 0 le_rfl
      (by omega) hrun
    have h1 := runLoop_append_running (session.readPass sz limit) pre (r :: post) 0 hrun
    have hadd := IntSize.add_len sz (session.HandleRead sz limit 0 pre).counter
      r.data.length (by rw [hc]; have := IntSize.minInt_le sz; omega) (by rw [hc]; omega)
    have hp := Session.readPass_breach session sz limit
      (session.HandleRead sz limit 0 pre).counter r hok h0 (by rw [hadd, hc]; omega)
    rw [hsplit]
    unfold Session.HandleRead at hp ⊢
    rw [h1, runLoop_cons, hp]
    simp [relayed_append, relayed]
  · intro hpos
    rw [hweq]
    rcases hw with h | h
    · rw [writtenBytes_of_nil _ h]
      simpa using hpos
    · simpa using h
  · intro hle
    rw [hweq]
    rcases hw with h | h
    · exact writtenBytes_of_nil _ h
    · omega

/-- C14 with limit 10: of two reads and two payloads of five bytes each, the first is let
through and the second, which would bring the total to exactly 10, is not. -/
theorem quota_bounds_data_witness :
    relayedBytes ((⟨"test-session", 0⟩ : Session).HandleRead IntSize.bits64 10 0
      [⟨fiveBytes, false⟩, ⟨fiveBytes, false⟩]).effects = 5 ∧
    (relayedBytes ((⟨"test-session", 0⟩ : Session).HandleRead IntSize.bits64 10 0
      [⟨fiveBytes, false⟩, ⟨fiveBytes, false⟩]).effects : Int) < 10 ∧
    (writtenBytes (Session.HandleWrite IntSize.bits64 10 0
      [Selected.message fiveBytes false, Selected.message fiveBytes false]).effects : Int)
      < 10 :=
  have h := quota_bounds_data ⟨"test-session", 0⟩ IntSize.bits64 10
    [⟨fiveBytes, false⟩, ⟨fiveBytes, false⟩]
    [Selected.message fiveBytes false, Selected.message fiveBytes false]
    (by decide) (by decide) (by decide)
  ⟨by decide, h.1 (by decide), h.2.2.2.1 (by decide)⟩

/-- C14 as stated fails for a limit of 0: nothing is relayed and nothing is written, and
the total of 0 bytes is not strictly less than the limit. -/
theorem quota_bound_fails_at_zero :
    relayedBytes ((⟨"test-session", 0⟩ : Session).HandleRead IntSize.bits64 0 0
      [⟨fiveBytes, false⟩]).effects = 0 ∧
    ¬ ((relayedBytes ((⟨"test-session", 0⟩ : Session).HandleRead IntSize.bits64 0 0
      [⟨fiveBytes, false⟩]).effects : Int) < 0) ∧
    ¬ ((writtenBytes (Session.HandleWrite IntSize.bits64 0 0
      [Selected.message fiveBytes false]).effects : Int) < 0) := by
  decide

/-! ## Freedom from faults under the identifier discipline -/

theorem sublist_pair_snoc {α : Type} (a b x : α) (l : List α)
    (h : List.Sublist [a, b] (l ++ [x])) : List.Sublist [a, b] l ∨ (b = x ∧ a ∈ l) := by
  induction l with
  | nil =>
    have := h.length_le
    simp at this
  | cons y rest ih =>
    rw [List.cons_append] at h
    rcases List.sublist_cons_iff.mp h with h1 | ⟨r, hr, hsub⟩
    · rcases ih h1 with h2 | ⟨h2, h3⟩
      · exact Or.inl (h2.trans (List.sublist_cons_self _ _))
      · exact Or.inr ⟨h2, List.mem_cons_of_mem _ h3⟩
    · simp only [List.cons.injEq] at hr
      obtain ⟨hay, hrb⟩ := hr
      rw [← hrb] at hsub
      rcases List.mem_append.mp (List.singleton_sublist.mp hsub) with h2 | h2
      · left
        rw [hay]
        exact List.Sublist.cons₂ _ (List.singleton_sublist.mpr h2)
      · right
        exact ⟨List.mem_singleton.mp h2, hay ▸ List.mem_cons_self _ _⟩

theorem NoReRegistration_all (evs : List Event) (h : NoReRegistration evs) (s : Session) :
    ¬ List.Sublist [(⟨s, SessionEventType.Register⟩ : Event),
      ⟨s, SessionEventType.Unregister⟩, ⟨s, SessionEventType.Register⟩] evs := by
  intro hsub
  have hmem : (⟨s, SessionEventType.Register⟩ : Event) ∈ evs :=
    hsub.subset (List.mem_cons_self _ _)
  exact h _ hmem hsub

theorem NoReRegistration_left (a b : List Event) (h : NoReRegistration (a ++ b)) :
    NoReRegistration a :=
  fun e he hsub => h e (List.mem_append_left _ he)
    (hsub.trans (List.sublist_append_left a b))

theorem NoReRegistration_of_strict (evs : List Event) (h : NoRegisterAfterUnregister evs) :
    NoReRegistration evs := by
  intro e _ hsub
  have h1 : List.Sublist [(⟨e.Session, SessionEventType.Unregister⟩ : Event),
      ⟨e.Session, SessionEventType.Register⟩] evs :=
    (List.sublist_cons_self _ _).trans hsub
  have h2 := List.Pairwise.sublist h1 h
  exact (List.pairwise_cons.mp h2).1 _ (List.mem_singleton_self _) rfl rfl rfl

/-- Under the identifier discipline the hub runs without a panic, every queue it has closed
belongs to an endpoint that was registered and then unregistered, and every endpoint in the
registry has been registered and not unregistered since, so that its queue is open. -/
theorem Room.Open_open_queues (inputs : List Input) :
    DistinctIDs (lifecycle inputs) → NoReRegistration (lifecycle inputs) →
    ∃ C, chanRun [] (NewRoom.Open inputs).2 = some C ∧
      (∀ s ∈ C, List.Sublist [(⟨s, SessionEventType.Register⟩ : Event),
        ⟨s, SessionEventType.Unregister⟩] (lifecycle inputs)) ∧
      (∀ x ∈ (NewRoom.Open inputs).1.sessions,
        (⟨x.2, SessionEventType.Register⟩ : Event) ∈ lifecycle inputs ∧
        ¬ List.Sublist [(⟨x.2, SessionEventType.Register⟩ : Event),
          ⟨x.2, SessionEventType.Unregister⟩] (lifecycle inputs) ∧ x.2 ∉ C) := by
  induction inputs using List.reverseRecOn with
  | nil =>
    intro _ _
    exact ⟨[], rfl, fun s hs => by simp at hs, fun x hx => by simp [Room.Open, NewRoom] at hx⟩
  | append_singleton l i ih =>
    intro hd hn
    rw [lifecycle_append] at hd hn ⊢
    obtain ⟨C, hC, hCU, hreg⟩ :=
      ih (DistinctIDs_left _ _ hd) (NoReRegistration_left _ _ hn)
    have hwf := Room.Open_WF l NewRoom NewRoom_WF
    rw [Room.Open_append, Room.Open_single]
    simp only [chanRun_append, hC, Option.some_bind]
    cases i with
    | message m =>
      simp only [lifecycle, List.append_nil, Room.step, Room.onMessage]
      exact ⟨C, chanRun_broadcast m C _ (fun x hx => (hreg x hx).2.2), hCU, hreg⟩
    | event ev =>
      obtain ⟨e, t⟩ := ev
      have hlc : lifecycle [Input.event ⟨e, t⟩] = [⟨e, t⟩] := rfl
      rw [hlc] at hd hn ⊢
      have hmono : ∀ s ∈ C, List.Sublist [(⟨s, SessionEventType.Register⟩ : Event),
          ⟨s, SessionEventType.Unregister⟩] (lifecycle l ++ [⟨e, t⟩]) :=
        fun s hs => (hCU s hs).trans (List.sublist_append_left _ _)
      cases t with
      | Register =>
        simp only [Room.step, Room.onEvent_register]
        refine ⟨C, rfl, hmono, ?_⟩
        have hnew : ¬ List.Sublist [(⟨e, SessionEventType.Register⟩ : Event),
            ⟨e, SessionEventType.Unregister⟩] (lifecycle l) := by
          intro hsub
          exact NoReRegistration_all _ hn e
            (hsub.append (List.Sublist.refl [(⟨e, SessionEventType.Register⟩ : Event)]))
        intro x hx
        rcases List.mem_cons.mp hx with h1 | h1
        · subst h1
          refine ⟨List.mem_append_right _ (List.mem_singleton_self _), ?_,
            fun hc => hnew (hCU e hc)⟩
          intro hsub
          rcases sublist_pair_snoc _ _ _ _ hsub with h2 | ⟨h2, _⟩
          · exact hnew h2
          · simp at h2
        · have hx1 := hreg x ((SessionMap.mem_delete_iff _ _ x).mp h1).1
          refine ⟨List.mem_append_left _ hx1.1, ?_, hx1.2.2⟩
          intro hsub
          rcases sublist_pair_snoc _ _ _ _ hsub with h2 | ⟨h2, _⟩
          · exact hx1.2.1 h2
          · simp at h2
      | Unregister =>
        have hother : ∀ x ∈ (NewRoom.Open l).1.sessions, x.1 ≠ e.ID →
            ¬ List.Sublist [(⟨x.2, SessionEventType.Register⟩ : Event),
              ⟨x.2, SessionEventType.Unregister⟩]
              (lifecycle l ++ [⟨e, SessionEventType.Unregister⟩]) := by
          intro x hx hk hsub
          rcases sublist_pair_snoc _ _ _ _ hsub with h2 | ⟨h2, _⟩
          · exact (hreg x hx).2.1 h2
          · have h3 : x.2 = e := congrArg Event.Session h2
            apply hk
            rw [hwf.2 x hx, h3]
        by_cases hp : ((NewRoom.Open l).1.sessions.get e.ID).isSome = true
        · simp only [Room.step, Room.onEvent_unregister_present _ e hp]
          obtain ⟨s1, hs1⟩ := Option.isSome_iff_exists.mp hp
          have hmem := SessionMap.mem_of_get _ _ _ hs1
          have hs1e : s1 = e := by
            have hid : s1.ID = e.ID := (hwf.2 _ hmem).symm
            exact hd ⟨s1, SessionEventType.Register⟩
              (List.mem_append_left _ (hreg _ hmem).1) ⟨e, SessionEventType.Unregister⟩
              (List.mem_append_right _ (List.mem_singleton_self _)) hid
          have heC : e ∉ C := by
            have := (hreg _ hmem).2.2
            rwa [hs1e] at this
          have hereg : (⟨e, SessionEventType.Register⟩ : Event) ∈ lifecycle l := by
            have := (hreg _ hmem).1
            rwa [hs1e] at this
          refine ⟨e :: C, by simp [chanRun, heC], ?_, ?_⟩
          · intro s hs
            rcases List.mem_cons.mp hs with h1 | h1
            · rw [h1]
              exact (List.singleton_sublist.mpr hereg).append
                (List.Sublist.refl [(⟨e, SessionEventType.Unregister⟩ : Event)])
            · exact hmono s h1
          · intro x hx
            obtain ⟨hx1, hx2⟩ := (SessionMap.mem_delete_iff _ _ x).mp hx
            refine ⟨List.mem_append_left _ (hreg x hx1).1, hother x hx1 hx2, ?_⟩
            intro hc
            rcases List.mem_cons.mp hc with h1 | h1
            · exact hx2 (by rw [hwf.2 x hx1, h1])
            · exact (hreg x hx1).2.2 h1
        · have hnone : (NewRoom.Open l).1.sessions.get e.ID = none := by
            simpa [Option.isSome_iff_ne_none] using hp
          simp only [Room.step, Room.onEvent_unregister_absent _ e hnone]
          refine ⟨C, rfl, hmono, ?_⟩
          intro x hx
          exact ⟨List.mem_append_left _ (hreg x hx).1,
            hother x hx (SessionMap.not_mem_of_get_none _ _ hnone x hx), (hreg x hx).2.2⟩

/-- C15. Fault-freedom of the hub: take any finite sequence of lifecycle events and relay
messages in which distinct endpoints have distinct identifiers and no endpoint is registered
again after it has been unregistered.  At every point of its processing by `Room.Open` from
the empty registry, the channel operations issued so far run without a panic (no close of a
closed queue, no push onto a closed queue), every session in the registry has an open
delivery queue, and every session whose queue has been closed is absent from the registry.
Whatever the identifiers, Unregister closes the queue of the endpoint named in the event,
which need not be the endpoint stored under that identifier; without distinct identifiers
this can close a queue twice. -/
theorem hub_fault_free (inputs : List Input) (hd : DistinctIDs (lifecycle inputs))
    (hn : NoReRegistration (lifecycle inputs)) :
    (∀ pre post : List Input, inputs = pre ++ post →
      ∃ closed : List Session, chanRun [] (NewRoom.Open pre).2 = some closed ∧
        (∀ x ∈ (NewRoom.Open pre).1.sessions, x.2 ∉ closed) ∧
        (∀ s ∈ closed, ∀ k, (NewRoom.Open pre).1.sessions.get k ≠ some s)) ∧
    (∀ (room : Room) (e stored : Session), room.sessions.get e.ID = some stored →
      (room.step (Input.event ⟨e, SessionEventType.Unregister⟩)).2 = [ChanOp.close e]) ∧
    ((⟨[("x", ⟨"x", 0⟩)]⟩ : Room).sessions.get "x" = some ⟨"x", 0⟩ ∧
      ((⟨[("x", ⟨"x", 0⟩)]⟩ : Room).step
        (Input.event ⟨⟨"x", 1⟩, SessionEventType.Unregister⟩)).2 = [ChanOp.close ⟨"x", 1⟩]) ∧
    (NoReRegistration (lifecycle sameIdentifier) ∧
      chanRun [] (NewRoom.Open sameIdentifier).2 = none) := by
  refine ⟨?_, ?_, by decide, by decide⟩
  · intro pre post hsplit
    rw [hsplit, lifecycle_append] at hd hn
    obtain ⟨C, hC, _, hreg⟩ := Room.Open_open_queues pre (DistinctIDs_left _ _ hd)
      (NoReRegistration_left _ _ hn)
    refine ⟨C, hC, fun x hx => (hreg x hx).2.2, ?_⟩
    intro s hs k hk
    exact (hreg (k, s) (SessionMap.mem_of_get _ _ _ hk)).2.2 hs
  · intro room e stored hstored
    have hp : (room.sessions.get e.ID).isSome = true := by simp [hstored]
    simp [Room.step, Room.onEvent_unregister_present room e hp]

/-- C15 on two endpoints, one of which is unregistered twice: the run has no panic and
the queue closed is the one of the endpoint that has left the registry. -/
theorem hub_fault_free_witness :
    DistinctIDs (lifecycle twoEndpoints) ∧
    NoReRegistration (lifecycle twoEndpoints) ∧
    ∃ closed : List Session, chanRun [] (NewRoom.Open twoEndpoints).2 = some closed ∧
      (∀ x ∈ (NewRoom.Open twoEndpoints).1.sessions, x.2 ∉ closed) ∧
      (∀ s ∈ closed, ∀ k, (NewRoom.Open twoEndpoints).1.sessions.get k ≠ some s) :=
  ⟨by decide, by decide,
    (hub_fault_free twoEndpoints (by decide) (by decide)).1 twoEndpoints [] (by simp)⟩

/-! ## The loop that a panic ends -/

theorem Room.Open_cons (room : Room) (i : Input) (rest : List Input) :
    Room.Open room (i :: rest) =
      ((Room.Open (room.step i).1 rest).1,
        (room.step i).2 ++ (Room.Open (room.step i).1 rest).2) :=
  rfl

/-- While no channel operation panics, the loop that a panic ends does what `Room.Open`
lists. -/
theorem Room.OpenChecked_of_chanRun (inputs : List Input) :
    ∀ (room : Room) (C D : List Session), chanRun C (Room.Open room inputs).2 = some D →
      Room.OpenChecked room C inputs = ⟨(Room.Open room inputs).1, D, false⟩ := by
  induction inputs with
  | nil =>
    intro room C D h
    simp only [Room.Open, chanRun, Option.some.injEq] at h
    simp [Room.OpenChecked, Room.Open, h]
  | cons i rest ih =>
    intro room C D h
    rw [Room.Open_cons] at h ⊢
    simp only [chanRun_append] at h
    cases hstep : chanRun C (room.step i).2 with
    | none => simp [hstep] at h
    | some C1 =>
      rw [hstep, Option.some_bind] at h
      simp only [Room.OpenChecked, hstep]
      exact ih (room.step i).1 C1 D h

/-- When a channel operation panics, the loop that a panic ends has panicked. -/
theorem Room.OpenChecked_of_panic (inputs : List Input) :
    ∀ (room : Room) (C : List Session), chanRun C (Room.Open room inputs).2 = none →
      (Room.OpenChecked room C inputs).panicked = true := by
  induction inputs with
  | nil =>
    intro room C h
    simp [Room.Open, chanRun] at h
  | cons i rest ih =>
    intro room C h
    rw [Room.Open_cons] at h
    simp only [chanRun_append] at h
    cases hstep : chanRun C (room.step i).2 with
    | none => simp [Room.OpenChecked, hstep]
    | some C1 =>
      rw [hstep, Option.some_bind] at h
      simp only [Room.OpenChecked, hstep]
      exact ih (room.step i).1 C1 h

/-- C9 as amended. Registry size: for every finite sequence of lifecycle events (with relay
messages anywhere between them) issued by endpoints with pairwise distinct identifiers, none
of which is registered again after it has been registered and unregistered, and processed
by the control loop from the empty registry, the loop gets through the whole sequence
without a panic, and the number of entries of the registry afterwards is the number of
endpoints whose last lifecycle event in the sequence was Register; it is 0 when the last
event of every endpoint is Unregister. -/
theorem registry_size (inputs : List Input) (hd : DistinctIDs (lifecycle inputs))
    (hn : NoReRegistration (lifecycle inputs)) :
    (Room.OpenChecked NewRoom [] inputs).panicked = false ∧
    (Room.OpenChecked NewRoom [] inputs).room = (NewRoom.Open inputs).1 ∧
    (Room.OpenChecked NewRoom [] inputs).room.sessions.length =
      registeredLast (lifecycle inputs) ∧
    ((∀ s ∈ endpoints (lifecycle inputs),
        lastEventOf s (lifecycle inputs) = some SessionEventType.Unregister) →
      (Room.OpenChecked NewRoom [] inputs).room.sessions.length = 0) := by
  obtain ⟨C, hC, _, _⟩ := Room.Open_open_queues inputs hd hn
  have hrun := Room.OpenChecked_of_chanRun inputs NewRoom [] C hC
  have hsize := Room.Open_size inputs hd
  rw [hrun]
  exact ⟨rfl, rfl, hsize.1, hsize.2⟩

/-- C9 on two endpoints of which one has unregistered, twice: no panic, one entry left. -/
theorem registry_size_witness :
    DistinctIDs (lifecycle twoEndpoints) ∧
    NoReRegistration (lifecycle twoEndpoints) ∧
    (Room.OpenChecked NewRoom [] twoEndpoints).panicked = false ∧
    (Room.OpenChecked NewRoom [] twoEndpoints).room.sessions.length =
      registeredLast (lifecycle twoEndpoints) ∧
    registeredLast (lifecycle twoEndpoints) = 1 :=
  have h := registry_size twoEndpoints (by decide) (by decide)
  ⟨by decide, by decide, h.1, h.2.2.1, by decide⟩

/-- C9 as stated fails: the endpoints of this sequence have distinct identifiers, the last
lifecycle event of one of them is Register, yet the loop is ended by the panic of the
second close of the queue of `s-0` with an empty registry, and the Register event behind it
is never dequeued. -/
theorem registry_size_fails_after_panic :
    DistinctIDs (lifecycle registeredAgainThenOther) ∧
    registeredLast (lifecycle registeredAgainThenOther) = 1 ∧
    Room.OpenChecked NewRoom [] registeredAgainThenOther =
      ⟨⟨[]⟩, [⟨"s-0", 0⟩], true⟩ ∧
    (Room.OpenChecked NewRoom [] registeredAgainThenOther).room.sessions.length = 0 := by
  decide

end TcpGo
